import Mathlib

/-!
Verification of the mqv package: the constant-time fixed-width integer
(`SubtleInt`) and the ECC MQV / BlindMQV key-agreement primitives.

Shallow embedding conventions:
* Go machine words (`uint`, `bits.UintSize` bits) are natural numbers below
  `2 ^ w`; the word size `w` is a parameter (32 or 64 on real platforms) and
  wrap-around is written explicitly with `% 2 ^ w`.
* `SubtleInt` is a list of words, least-significant first, as in the Go slice.
* Byte strings are lists of naturals below 256, in the order of the Go slice
  (big-endian for scalar encodings).
* The unbounded rejection-sampling loop of `GenerateKey` takes an explicit
  `fuel` bound; a random stream is a finite list of bytes, and exhausting
  either the stream or the fuel is a failed (`none`) run.
* Points of the order-n cyclic subgroup used by MQV are represented by their
  discrete logarithm with respect to the base point, that is by `ZMod n`;
  the point at infinity is `0`, matching the convention (signalled by the
  curve library through a zero x-coordinate) that the spec describes.
-/

namespace Mqv

/-- Models the wrapping `w`-bit unsigned subtraction `a - b` of Go
(`b ≤ 2 ^ w` in every use below). -/
def wsub (w a b : ℕ) : ℕ := (a + (2 ^ w - b)) % 2 ^ w

/-- Models Go `selectW`: returns `a` if `v = 1` and `b` if `v = 0`,
computed branch-free as `^(v-1)&a | (v-1)&b`; bitwise NOT of `m` is
`m ^^^ (2^w - 1)`. -/
def selectW (w v a b : ℕ) : ℕ :=
  let m := wsub w v 1
  ((m ^^^ (2 ^ w - 1)) &&& a) ||| (m &&& b)

/-- Models Go `lessEqW`: 1 if `a ≤ b`, 0 if `a > b`, branch-free via the
split of each word into its most significant bit and remainder
(`a &^ (1 << (w-1))` is AND NOT, i.e. AND with the complemented mask). -/
def lessEqW (w a b : ℕ) : ℕ :=
  let msbA := (a >>> (w - 1)) &&& 1
  let msbB := (b >>> (w - 1)) &&& 1
  let remA := a &&& ((2 ^ w - 1) ^^^ (1 <<< (w - 1)))
  let remB := b &&& ((2 ^ w - 1) ^^^ (1 <<< (w - 1)))
  let less := ((wsub w (wsub w remA remB) 1) >>> (w - 1)) &&& 1
  selectW w ((msbA ^^^ msbB) &&& 1) msbB less

/-- Models Go `lessW`: 1 if `a < b` and 0 if `a ≥ b`. -/
def lessW (w a b : ℕ) : ℕ := lessEqW w b a ^^^ 1

/-- Models Go `addW`: `z1<<w + z0 = a+b+c` with `c ∈ {0,1}`. -/
def addW (w a b c : ℕ) : ℕ × ℕ :=
  let bc := (b + c) % 2 ^ w
  let z0 := (a + bc) % 2 ^ w
  (z0, lessW w z0 a ||| lessW w bc b)

/-- Models Go `subW`: `z1<<w + z0 = a-b-c` with `c ∈ {0,1}`. -/
def subW (w a b c : ℕ) : ℕ × ℕ :=
  let bc := (b + c) % 2 ^ w
  let z0 := wsub w a bc
  (z0, lessW w a z0 ||| lessW w bc b)

section WordLemmas

theorem wsub_eq {w a b : ℕ} (ha : a < 2 ^ w) (hb : b ≤ 2 ^ w) :
    wsub w a b = if b ≤ a then a - b else a + (2 ^ w - b) := by
  unfold wsub
  by_cases h : b ≤ a
  · have he : a + (2 ^ w - b) = (a - b) + 2 ^ w := by omega
    rw [if_pos h, he, Nat.add_mod_right, Nat.mod_eq_of_lt (by omega)]
  · rw [if_neg h, Nat.mod_eq_of_lt (by omega)]

theorem mask_rem_eq {w : ℕ} (hw : 0 < w) :
    (2 ^ w - 1) ^^^ (1 <<< (w - 1)) = 2 ^ (w - 1) - 1 := by
  rw [Nat.one_shiftLeft]
  apply Nat.eq_of_testBit_eq
  intro i
  simp only [Nat.testBit_xor, Nat.testBit_two_pow_sub_one, Nat.testBit_two_pow]
  rcases Nat.lt_trichotomy i (w - 1) with h | h | h
  · have h2 : i < w := by omega
    have h3 : ¬ (w - 1 = i) := by omega
    simp [h2, h3, h]
  · have h2 : i < w := by omega
    have h3 : ¬ (i < w - 1) := by omega
    simp [h2, h, h3, hw]
  · have h2 : ¬ (i < w) := by omega
    have h3 : ¬ (w - 1 = i) := by omega
    have h4 : ¬ (i < w - 1) := by omega
    simp [h2, h3, h4]

theorem one_lt_two_pow_of_pos {w : ℕ} (hw : 0 < w) : 1 < 2 ^ w := by
  calc (1 : ℕ) < 2 ^ 1 := by norm_num
    _ ≤ 2 ^ w := Nat.pow_le_pow_right (by norm_num) hw

theorem selectW_one {w a b : ℕ} (hw : 0 < w) (ha : a < 2 ^ w) :
    selectW w 1 a b = a := by
  have h2 : (1 : ℕ) < 2 ^ w := one_lt_two_pow_of_pos hw
  have h1 : wsub w 1 1 = 0 := by rw [wsub_eq h2 (by omega)]; simp
  simp only [selectW, h1]
  rw [Nat.zero_xor, Nat.zero_and, Nat.or_zero, Nat.and_comm,
      Nat.and_pow_two_sub_one_eq_mod, Nat.mod_eq_of_lt ha]

theorem selectW_zero {w a b : ℕ} (hw : 0 < w) (hb : b < 2 ^ w) :
    selectW w 0 a b = b := by
  have h2 : (1 : ℕ) < 2 ^ w := one_lt_two_pow_of_pos hw
  have h1 : wsub w 0 1 = 2 ^ w - 1 := by
    rw [wsub_eq (by omega) (by omega)]
    simp
  simp only [selectW, h1]
  rw [Nat.xor_self, Nat.zero_and, Nat.zero_or, Nat.and_comm,
      Nat.and_pow_two_sub_one_eq_mod, Nat.mod_eq_of_lt hb]

theorem lessEqW_eq {w a b : ℕ} (hw : 0 < w) (ha : a < 2 ^ w) (hb : b < 2 ^ w) :
    lessEqW w a b = if a ≤ b then 1 else 0 := by
  have hM : 0 < 2 ^ (w - 1) := by positivity
  have hsplit : 2 ^ w = 2 ^ (w - 1) * 2 := by
    rw [← pow_succ]
    congr 1
    omega
  have hrA : a &&& ((2 ^ w - 1) ^^^ (1 <<< (w - 1))) = a % 2 ^ (w - 1) := by
    rw [mask_rem_eq hw, Nat.and_pow_two_sub_one_eq_mod]
  have hrB : b &&& ((2 ^ w - 1) ^^^ (1 <<< (w - 1))) = b % 2 ^ (w - 1) := by
    rw [mask_rem_eq hw, Nat.and_pow_two_sub_one_eq_mod]
  have hdivA : a / 2 ^ (w - 1) < 2 := Nat.div_lt_of_lt_mul (by omega)
  have hdivB : b / 2 ^ (w - 1) < 2 := Nat.div_lt_of_lt_mul (by omega)
  have hmA : (a >>> (w - 1)) &&& 1 = a / 2 ^ (w - 1) := by
    rw [Nat.shiftRight_eq_div_pow, Nat.and_one_is_mod]
    exact Nat.mod_eq_of_lt hdivA
  have hmB : (b >>> (w - 1)) &&& 1 = b / 2 ^ (w - 1) := by
    rw [Nat.shiftRight_eq_div_pow, Nat.and_one_is_mod]
    exact Nat.mod_eq_of_lt hdivB
  have hda := Nat.div_add_mod a (2 ^ (w - 1))
  have hdb := Nat.div_add_mod b (2 ^ (w - 1))
  have hrAlt : a % 2 ^ (w - 1) < 2 ^ (w - 1) := Nat.mod_lt _ hM
  have hrBlt : b % 2 ^ (w - 1) < 2 ^ (w - 1) := Nat.mod_lt _ hM
  have hless : ((wsub w (wsub w (a % 2 ^ (w - 1)) (b % 2 ^ (w - 1))) 1) >>> (w - 1)) &&& 1
      = if a % 2 ^ (w - 1) ≤ b % 2 ^ (w - 1) then 1 else 0 := by
    rw [Nat.shiftRight_eq_div_pow, Nat.and_one_is_mod]
    have hs1 := @wsub_eq w (a % 2 ^ (w - 1)) (b % 2 ^ (w - 1)) (by omega) (by omega)
    by_cases hc : b % 2 ^ (w - 1) ≤ a % 2 ^ (w - 1)
    · rw [if_pos hc] at hs1
      by_cases heq : a % 2 ^ (w - 1) = b % 2 ^ (w - 1)
      · have h0 : wsub w (a % 2 ^ (w - 1)) (b % 2 ^ (w - 1)) = 0 := by rw [hs1]; omega
        rw [h0, wsub_eq (by omega) (by omega), if_neg (by omega)]
        have h5 : 0 + (2 ^ w - 1) = (2 ^ (w - 1) - 1) + 1 * 2 ^ (w - 1) := by omega
        rw [h5, Nat.add_mul_div_right _ _ hM, Nat.div_eq_of_lt (by omega),
          if_pos (by omega)]
      · have hpos : 1 ≤ wsub w (a % 2 ^ (w - 1)) (b % 2 ^ (w - 1)) := by rw [hs1]; omega
        have hlt : wsub w (a % 2 ^ (w - 1)) (b % 2 ^ (w - 1)) < 2 ^ w := by rw [hs1]; omega
        rw [wsub_eq hlt (by omega), if_pos hpos, hs1]
        rw [Nat.div_eq_of_lt (by omega), if_neg (by omega)]
    · have hpos : 1 ≤ wsub w (a % 2 ^ (w - 1)) (b % 2 ^ (w - 1)) := by
        rw [hs1, if_neg hc]
        omega
      have hlt : wsub w (a % 2 ^ (w - 1)) (b % 2 ^ (w - 1)) < 2 ^ w := by
        rw [hs1, if_neg hc]
        omega
      rw [wsub_eq hlt (by omega), if_pos hpos, hs1, if_neg hc, if_pos (by omega)]
      have h5 : a % 2 ^ (w - 1) + (2 ^ w - b % 2 ^ (w - 1)) - 1
          = (a % 2 ^ (w - 1) + (2 ^ (w - 1) - b % 2 ^ (w - 1)) - 1) + 1 * 2 ^ (w - 1) := by
        omega
      rw [h5, Nat.add_mul_div_right _ _ hM, Nat.div_eq_of_lt (by omega)]
  simp only [lessEqW]
  rw [hrA, hrB, hmA, hmB, hless]
  have hA2 : a / 2 ^ (w - 1) = 0 ∨ a / 2 ^ (w - 1) = 1 := by omega
  have hB2 : b / 2 ^ (w - 1) = 0 ∨ b / 2 ^ (w - 1) = 1 := by omega
  have hlt1 : (if a % 2 ^ (w - 1) ≤ b % 2 ^ (w - 1) then 1 else 0) < 2 ^ w := by
    split <;> omega
  rcases hA2 with h1 | h1 <;> rcases hB2 with h2 | h2 <;>
    rw [h1, h2] <;> rw [h1] at hda <;> rw [h2] at hdb <;>
    simp only [Nat.mul_zero, Nat.mul_one, Nat.zero_add] at hda hdb
  · have hx : ((0 : ℕ) ^^^ 0) &&& 1 = 0 := by decide
    rw [hx, selectW_zero hw hlt1]
    have hiff : a % 2 ^ (w - 1) ≤ b % 2 ^ (w - 1) ↔ a ≤ b := by omega
    by_cases hab : a ≤ b
    · rw [if_pos hab, if_pos (hiff.mpr hab)]
    · rw [if_neg hab, if_neg (fun hcon => hab (hiff.mp hcon))]
  · have hx : ((0 : ℕ) ^^^ 1) &&& 1 = 1 := by decide
    rw [hx, selectW_one hw (by omega)]
    rw [if_pos (by omega)]
  · have hx : ((1 : ℕ) ^^^ 0) &&& 1 = 1 := by decide
    rw [hx, selectW_one hw (by omega)]
    rw [if_neg (by omega)]
  · have hx : ((1 : ℕ) ^^^ 1) &&& 1 = 0 := by decide
    rw [hx, selectW_zero hw hlt1]
    have hiff : a % 2 ^ (w - 1) ≤ b % 2 ^ (w - 1) ↔ a ≤ b := by omega
    by_cases hab : a ≤ b
    · rw [if_pos hab, if_pos (hiff.mpr hab)]
    · rw [if_neg hab, if_neg (fun hcon => hab (hiff.mp hcon))]

theorem lessW_eq {w a b : ℕ} (hw : 0 < w) (ha : a < 2 ^ w) (hb : b < 2 ^ w) :
    lessW w a b = if a < b then 1 else 0 := by
  unfold lessW
  rw [lessEqW_eq hw hb ha]
  by_cases h : b ≤ a
  · rw [if_pos h, if_neg (by omega)]
    decide
  · rw [if_neg h, if_pos (by omega)]
    decide

theorem addW_eq {w a b c : ℕ} (hw : 0 < w) (ha : a < 2 ^ w) (hb : b < 2 ^ w) (hc : c ≤ 1) :
    addW w a b c = ((a + b + c) % 2 ^ w, (a + b + c) / 2 ^ w) := by
  have hP : (0 : ℕ) < 2 ^ w := by positivity
  have h2 : (1 : ℕ) < 2 ^ w := one_lt_two_pow_of_pos hw
  simp only [addW, Prod.mk.injEq]
  by_cases hbc : b + c < 2 ^ w
  · rw [Nat.mod_eq_of_lt hbc]
    have hz0lt : (a + (b + c)) % 2 ^ w < 2 ^ w := Nat.mod_lt _ hP
    rw [lessW_eq hw hz0lt ha, lessW_eq hw hbc hb,
      if_neg (show ¬ (b + c < b) by omega), Nat.or_zero]
    have hassoc : a + (b + c) = a + b + c := by omega
    rw [hassoc]
    refine ⟨rfl, ?_⟩
    by_cases hsum : a + b + c < 2 ^ w
    · rw [Nat.mod_eq_of_lt hsum, if_neg (show ¬ (a + b + c < a) by omega),
        Nat.div_eq_of_lt hsum]
    · have he : a + b + c = (a + b + c - 2 ^ w) + 1 * 2 ^ w := by omega
      rw [he, Nat.add_mul_mod_self_right, Nat.add_mul_div_right _ _ hP,
        Nat.mod_eq_of_lt (by omega), Nat.div_eq_of_lt (by omega),
        if_pos (show a + b + c - 2 ^ w < a by omega)]
  · have hbceq : b + c = 2 ^ w := by omega
    have hb1 : b = 2 ^ w - 1 := by omega
    rw [hbceq, Nat.mod_self, Nat.add_zero, Nat.mod_eq_of_lt ha]
    rw [lessW_eq hw ha ha, lessW_eq hw hP hb, if_neg (show ¬ (a < a) by omega),
      if_pos (show 0 < b by omega), Nat.zero_or]
    have he : a + b + c = a + 1 * 2 ^ w := by omega
    rw [he, Nat.add_mul_mod_self_right, Nat.add_mul_div_right _ _ hP,
      Nat.mod_eq_of_lt ha, Nat.div_eq_of_lt ha]
    exact ⟨rfl, rfl⟩

theorem subW_eq {w a b c : ℕ} (hw : 0 < w) (ha : a < 2 ^ w) (hb : b < 2 ^ w) (hc : c ≤ 1) :
    subW w a b c = ((a + (2 ^ w - (b + c))) % 2 ^ w, if a < b + c then 1 else 0) := by
  have hP : (0 : ℕ) < 2 ^ w := by positivity
  have h2 : (1 : ℕ) < 2 ^ w := one_lt_two_pow_of_pos hw
  simp only [subW, Prod.mk.injEq]
  by_cases hbc : b + c < 2 ^ w
  · rw [Nat.mod_eq_of_lt hbc]
    refine ⟨rfl, ?_⟩
    rw [wsub_eq ha (by omega), lessW_eq hw hbc hb,
      if_neg (show ¬ (b + c < b) by omega), Nat.or_zero]
    by_cases hle : b + c ≤ a
    · rw [if_pos hle, lessW_eq hw ha (show a - (b + c) < 2 ^ w by omega),
        if_neg (show ¬ (a < a - (b + c)) by omega),
        if_neg (show ¬ (a < b + c) by omega)]
    · rw [if_neg hle, lessW_eq hw ha (show a + (2 ^ w - (b + c)) < 2 ^ w by omega),
        if_pos (show a < a + (2 ^ w - (b + c)) by omega),
        if_pos (show a < b + c by omega)]
  · have hbceq : b + c = 2 ^ w := by omega
    have hb1 : b = 2 ^ w - 1 := by omega
    have hz0 : wsub w a 0 = a := by
      rw [wsub_eq ha (by omega), if_pos (by omega)]
      omega
    rw [hbceq, Nat.mod_self]
    constructor
    · rw [hz0, Nat.sub_self, Nat.add_zero, Nat.mod_eq_of_lt ha]
    · rw [hz0, lessW_eq hw ha ha, lessW_eq hw hP hb,
        if_neg (show ¬ (a < a) by omega), if_pos (show 0 < b by omega),
        Nat.zero_or, if_pos (show a < 2 ^ w by omega)]

theorem addW_spec {w a b c : ℕ} (hw : 0 < w) (ha : a < 2 ^ w) (hb : b < 2 ^ w) (hc : c ≤ 1) :
    (addW w a b c).1 + (addW w a b c).2 * 2 ^ w = a + b + c ∧
    (addW w a b c).1 < 2 ^ w ∧ (addW w a b c).2 ≤ 1 := by
  rw [addW_eq hw ha hb hc]
  have hd := Nat.div_add_mod (a + b + c) (2 ^ w)
  have hm : (a + b + c) % 2 ^ w < 2 ^ w := Nat.mod_lt _ (by positivity)
  have hdiv : (a + b + c) / 2 ^ w ≤ 1 := by
    have := Nat.div_lt_of_lt_mul (show a + b + c < 2 ^ w * 2 by omega)
    omega
  refine ⟨?_, hm, hdiv⟩
  rcases Nat.le_one_iff_eq_zero_or_eq_one.mp hdiv with h | h <;> rw [h] at hd ⊢ <;> omega

theorem subW_spec {w a b c : ℕ} (hw : 0 < w) (ha : a < 2 ^ w) (hb : b < 2 ^ w) (hc : c ≤ 1) :
    (subW w a b c).1 + b + c = a + (subW w a b c).2 * 2 ^ w ∧
    (subW w a b c).1 < 2 ^ w ∧ (subW w a b c).2 ≤ 1 := by
  rw [subW_eq hw ha hb hc]
  by_cases h : a < b + c
  · rw [if_pos h]
    have hlt : a + (2 ^ w - (b + c)) < 2 ^ w := by omega
    rw [Nat.mod_eq_of_lt hlt]
    refine ⟨by omega, hlt, by omega⟩
  · rw [if_neg h]
    have he : a + (2 ^ w - (b + c)) = (a - (b + c)) + 2 ^ w := by omega
    rw [he, Nat.add_mod_right, Nat.mod_eq_of_lt (by omega)]
    refine ⟨by omega, by omega, by omega⟩

theorem and_one_xor_mask {w x : ℕ} (hw : 0 < w) (hx : x ≤ 1) :
    1 &&& (x ^^^ (2 ^ w - 1)) = 1 - x := by
  rw [Nat.one_and_eq_mod_two]
  interval_cases x
  · rw [Nat.zero_xor]
    have h1 : (2 ^ w - 1) % 2 = 1 := by
      rw [Nat.mod_two_eq_one_iff_testBit_zero, Nat.testBit_two_pow_sub_one]
      simp [hw]
    omega
  · have h0 : (1 ^^^ (2 ^ w - 1)) % 2 = 0 := by
      rw [Nat.mod_two_eq_zero_iff_testBit_zero, Nat.testBit_xor,
        Nat.testBit_two_pow_sub_one]
      simp [hw]
    omega

end WordLemmas

/-! SubtleInt: a fixed-length slice of `w`-bit machine words, least
significant word first, as in the Go slice `type SubtleInt []uint`. -/

/-- Value of a little-endian list of `w`-bit words (the `SubtleInt` layout). -/
def val (w : ℕ) : List ℕ → ℕ
  | [] => 0
  | d :: ds => d + 2 ^ w * val w ds

/-- Value of a big-endian list of `w`-bit digits: used for the reversed word
order that `SubtleInt.Less` scans, and with `w = 8` for big-endian byte
strings. -/
def valBE (w : ℕ) : List ℕ → ℕ
  | [] => 0
  | d :: ds => d * 2 ^ (w * ds.length) + valBE w ds

/-- All entries of the list are valid `w`-bit words (resp. bytes for 8). -/
abbrev wordsValid (w : ℕ) (z : List ℕ) : Prop := ∀ d ∈ z, d < 2 ^ w

/-- Models Go `SubtleIntSize`: number of words needed for `numBits` bits. -/
def SubtleIntSize (w numBits : ℕ) : ℕ :=
  let wordSize := w / 8
  let numBytes := (numBits + 7) >>> 3
  (numBytes + wordSize - 1) / wordSize

namespace SubtleInt

/-- Models the loop of Go `SubtleInt.Add`, threading the carry `c`;
`z.Add(x, y)` is `Add w x y 0`. Callers always pass equal lengths
(unequal lengths panic in Go). -/
def Add (w : ℕ) : List ℕ → List ℕ → ℕ → List ℕ × ℕ
  | x :: xs, y :: ys, c =>
    let zc := addW w x y c
    let rest := Add w xs ys zc.2
    (zc.1 :: rest.1, rest.2)
  | _, _, c => ([], c)

/-- Models the loop of Go `SubtleInt.Sub`, threading the borrow `c`. -/
def Sub (w : ℕ) : List ℕ → List ℕ → ℕ → List ℕ × ℕ
  | x :: xs, y :: ys, c =>
    let zc := subW w x y c
    let rest := Sub w xs ys zc.2
    (zc.1 :: rest.1, rest.2)
  | _, _, c => ([], c)

/-- Models Go `SubtleInt.Select`: elementwise `selectW p`. -/
def Select (w p : ℕ) : List ℕ → List ℕ → List ℕ
  | x :: xs, y :: ys => selectW w p x y :: Select w p xs ys
  | _, _ => []

/-- Models Go `SubtleInt.AddMod`. The `none` result models the
`panic("can not happen")` branch guarded by `c1 &^ c2 == 1`
(`&^` is AND NOT; the carries are below `2 ^ w`). -/
def AddMod (w : ℕ) (x y n : List ℕ) : Option (List ℕ) :=
  let zc1 := Add w x y 0
  let tc2 := Sub w zc1.1 n 0
  if zc1.2 &&& (tc2.2 ^^^ (2 ^ w - 1)) = 1 then none
  else some (Select w (zc1.2 ^^^ tc2.2) zc1.1 tc2.1)

/-- Models the loop of Go `SubtleInt.Less`, which scans from the most
significant word down; the arguments here are the reversed (big-endian)
word lists together with the `undecided` and `isLess` accumulators. -/
def lessLoop (w : ℕ) : List ℕ → List ℕ → ℕ → ℕ → ℕ
  | z :: zs, y :: ys, undecided, isLess =>
    let less1 := lessW w z y
    let less2 := lessW w y z
    let notequal := less1 ||| less2
    lessLoop w zs ys (undecided &&& (notequal ^^^ (2 ^ w - 1)))
      (selectW w (undecided &&& notequal) less1 isLess)
  | _, _, _, isLess => isLess

/-- Models Go `SubtleInt.Less`: 1 if `z < y` and 0 otherwise. -/
def Less (w : ℕ) (z y : List ℕ) : ℕ := lessLoop w z.reverse y.reverse 1 0

end SubtleInt

section ListLemmas

theorem val_lt {w : ℕ} (z : List ℕ) (h : wordsValid w z) :
    val w z < 2 ^ (w * z.length) := by
  induction z with
  | nil => simp [val]
  | cons d ds ih =>
    have hd : d < 2 ^ w := h d (by simp)
    have hds : wordsValid w ds := fun t ht => h t (by simp [ht])
    have ihh := ih hds
    simp only [val, List.length_cons]
    rw [show w * (ds.length + 1) = w + w * ds.length by ring, pow_add]
    have hstep : 2 ^ w * (val w ds + 1) = 2 ^ w * val w ds + 2 ^ w := by ring
    calc d + 2 ^ w * val w ds < 2 ^ w * (val w ds + 1) := by omega
      _ ≤ 2 ^ w * 2 ^ (w * ds.length) := Nat.mul_le_mul (Nat.le_refl _) (by omega)

theorem valBE_append_single {w : ℕ} (xs : List ℕ) (d : ℕ) :
    valBE w (xs ++ [d]) = valBE w xs * 2 ^ w + d := by
  induction xs with
  | nil => simp [valBE]
  | cons x xs ih =>
    simp only [List.cons_append, valBE, List.append_eq, ih, List.length_append,
      List.length_cons, List.length_nil]
    rw [show w * (xs.length + (0 + 1)) = w * xs.length + w by ring, pow_add]
    ring

theorem val_eq_valBE_reverse {w : ℕ} (z : List ℕ) : val w z = valBE w z.reverse := by
  induction z with
  | nil => rfl
  | cons d ds ih =>
    simp only [val, List.reverse_cons, valBE_append_single, ih]
    ring

theorem valBE_lt {w : ℕ} (z : List ℕ) (h : wordsValid w z) :
    valBE w z < 2 ^ (w * z.length) := by
  have h2 : wordsValid w z.reverse.reverse := by simpa using h
  have := val_lt z.reverse (fun t ht => h t (by simpa using ht))
  rw [val_eq_valBE_reverse] at this
  simpa using this

theorem Add_eq {w : ℕ} (hw : 0 < w) (x : List ℕ) : ∀ (y : List ℕ) (c : ℕ),
    x.length = y.length → wordsValid w x → wordsValid w y → c ≤ 1 →
    (SubtleInt.Add w x y c).1.length = x.length ∧
    wordsValid w (SubtleInt.Add w x y c).1 ∧
    (SubtleInt.Add w x y c).2 ≤ 1 ∧
    val w (SubtleInt.Add w x y c).1 + (SubtleInt.Add w x y c).2 * 2 ^ (w * x.length)
      = val w x + val w y + c := by
  induction x with
  | nil =>
    intro y c hlen _ _ hc
    have hy : y = [] := List.eq_nil_of_length_eq_zero hlen.symm
    subst hy
    refine ⟨rfl, by intro t ht; simp [SubtleInt.Add] at ht, hc, ?_⟩
    simp [SubtleInt.Add, val]
  | cons d ds ih =>
    intro y c hlen hvx hvy hc
    cases y with
    | nil => simp at hlen
    | cons e es =>
      have hd : d < 2 ^ w := hvx d (by simp)
      have he : e < 2 ^ w := hvy e (by simp)
      obtain ⟨hspec, hz0, hc1⟩ := addW_spec hw hd he hc
      obtain ⟨ihlen, ihval, ihc, iheq⟩ := ih es (addW w d e c).2
        (by simpa using hlen) (fun t ht => hvx t (by simp [ht]))
        (fun t ht => hvy t (by simp [ht])) hc1
      refine ⟨by simp [SubtleInt.Add, ihlen], ?_, by exact ihc, ?_⟩
      · intro t ht
        simp only [SubtleInt.Add, List.mem_cons] at ht
        rcases ht with h | h
        · rw [h]; exact hz0
        · exact ihval t h
      · simp only [SubtleInt.Add, val, List.length_cons]
        rw [show w * (ds.length + 1) = w + w * ds.length by ring, pow_add]
        calc (addW w d e c).1
              + 2 ^ w * val w (SubtleInt.Add w ds es (addW w d e c).2).1
              + (SubtleInt.Add w ds es (addW w d e c).2).2 * (2 ^ w * 2 ^ (w * ds.length))
            = (addW w d e c).1
              + 2 ^ w * (val w (SubtleInt.Add w ds es (addW w d e c).2).1
                + (SubtleInt.Add w ds es (addW w d e c).2).2 * 2 ^ (w * ds.length)) := by
              ring
          _ = (addW w d e c).1 + 2 ^ w * (val w ds + val w es + (addW w d e c).2) := by
              rw [iheq]
          _ = ((addW w d e c).1 + (addW w d e c).2 * 2 ^ w)
              + 2 ^ w * (val w ds + val w es) := by ring
          _ = (d + e + c) + 2 ^ w * (val w ds + val w es) := by rw [hspec]
          _ = d + 2 ^ w * val w ds + (e + 2 ^ w * val w es) + c := by ring

theorem Sub_eq {w : ℕ} (hw : 0 < w) (x : List ℕ) : ∀ (y : List ℕ) (c : ℕ),
    x.length = y.length → wordsValid w x → wordsValid w y → c ≤ 1 →
    (SubtleInt.Sub w x y c).1.length = x.length ∧
    wordsValid w (SubtleInt.Sub w x y c).1 ∧
    (SubtleInt.Sub w x y c).2 ≤ 1 ∧
    val w (SubtleInt.Sub w x y c).1 + val w y + c
      = val w x + (SubtleInt.Sub w x y c).2 * 2 ^ (w * x.length) := by
  induction x with
  | nil =>
    intro y c hlen _ _ hc
    have hy : y = [] := List.eq_nil_of_length_eq_zero hlen.symm
    subst hy
    refine ⟨rfl, by intro t ht; simp [SubtleInt.Sub] at ht, hc, ?_⟩
    simp [SubtleInt.Sub, val]
  | cons d ds ih =>
    intro y c hlen hvx hvy hc
    cases y with
    | nil => simp at hlen
    | cons e es =>
      have hd : d < 2 ^ w := hvx d (by simp)
      have he : e < 2 ^ w := hvy e (by simp)
      obtain ⟨hspec, hz0, hc1⟩ := subW_spec hw hd he hc
      obtain ⟨ihlen, ihval, ihc, iheq⟩ := ih es (subW w d e c).2
        (by simpa using hlen) (fun t ht => hvx t (by simp [ht]))
        (fun t ht => hvy t (by simp [ht])) hc1
      refine ⟨by simp [SubtleInt.Sub, ihlen], ?_, by exact ihc, ?_⟩
      · intro t ht
        simp only [SubtleInt.Sub, List.mem_cons] at ht
        rcases ht with h | h
        · rw [h]; exact hz0
        · exact ihval t h
      · simp only [SubtleInt.Sub, val, List.length_cons]
        rw [show w * (ds.length + 1) = w + w * ds.length by ring, pow_add]
        calc (subW w d e c).1
              + 2 ^ w * val w (SubtleInt.Sub w ds es (subW w d e c).2).1
              + (e + 2 ^ w * val w es) + c
            = ((subW w d e c).1 + e + c)
              + 2 ^ w * (val w (SubtleInt.Sub w ds es (subW w d e c).2).1 + val w es) := by
              ring
          _ = (d + (subW w d e c).2 * 2 ^ w)
              + 2 ^ w * (val w (SubtleInt.Sub w ds es (subW w d e c).2).1 + val w es) := by
              rw [hspec]
          _ = d + 2 ^ w * (val w (SubtleInt.Sub w ds es (subW w d e c).2).1 + val w es
              + (subW w d e c).2) := by ring
          _ = d + 2 ^ w * (val w ds
              + (SubtleInt.Sub w ds es (subW w d e c).2).2 * 2 ^ (w * ds.length)) := by
              rw [← iheq]
          _ = d + 2 ^ w * val w ds
              + (SubtleInt.Sub w ds es (subW w d e c).2).2 * (2 ^ w * 2 ^ (w * ds.length)) := by
              ring

theorem Select_one {w : ℕ} (hw : 0 < w) (x : List ℕ) : ∀ (y : List ℕ),
    x.length = y.length → wordsValid w x → SubtleInt.Select w 1 x y = x := by
  induction x with
  | nil => intro y _ _; rfl
  | cons d ds ih =>
    intro y hlen hvx
    cases y with
    | nil => simp at hlen
    | cons e es =>
      simp only [SubtleInt.Select]
      rw [selectW_one hw (hvx d (by simp)),
        ih es (by simpa using hlen) (fun t ht => hvx t (by simp [ht]))]

theorem Select_zero {w : ℕ} (hw : 0 < w) (x : List ℕ) : ∀ (y : List ℕ),
    x.length = y.length → wordsValid w y → SubtleInt.Select w 0 x y = y := by
  induction x with
  | nil =>
    intro y hlen _
    have : y = [] := List.eq_nil_of_length_eq_zero hlen.symm
    subst this
    rfl
  | cons d ds ih =>
    intro y hlen hvy
    cases y with
    | nil => simp at hlen
    | cons e es =>
      simp only [SubtleInt.Select]
      rw [selectW_zero hw (hvy e (by simp)),
        ih es (by simpa using hlen) (fun t ht => hvy t (by simp [ht]))]

theorem lessLoop_undecided_zero {w : ℕ} (hw : 0 < w) (zs : List ℕ) : ∀ (ys : List ℕ) (l : ℕ),
    l < 2 ^ w → SubtleInt.lessLoop w zs ys 0 l = l := by
  induction zs with
  | nil => intro ys l _; rfl
  | cons z zs ih =>
    intro ys l hl
    cases ys with
    | nil => rfl
    | cons y ys =>
      simp only [SubtleInt.lessLoop, Nat.zero_and]
      rw [selectW_zero hw hl]
      exact ih ys l hl

theorem lessLoop_one_eq {w : ℕ} (hw : 0 < w) (zs : List ℕ) : ∀ (ys : List ℕ) (l : ℕ),
    zs.length = ys.length → wordsValid w zs → wordsValid w ys → l ≤ 1 →
    SubtleInt.lessLoop w zs ys 1 l =
      if valBE w zs < valBE w ys then 1 else if valBE w ys < valBE w zs then 0 else l := by
  induction zs with
  | nil =>
    intro ys l hlen _ _ _
    have : ys = [] := List.eq_nil_of_length_eq_zero hlen.symm
    subst this
    simp [SubtleInt.lessLoop, valBE]
  | cons z zs ih =>
    intro ys l hlen hvz hvy hl
    cases ys with
    | nil => simp at hlen
    | cons y ys =>
      have hz : z < 2 ^ w := hvz z (by simp)
      have hy : y < 2 ^ w := hvy y (by simp)
      have hlen' : zs.length = ys.length := by simpa using hlen
      have hvz' : wordsValid w zs := fun t ht => hvz t (by simp [ht])
      have hvy' : wordsValid w ys := fun t ht => hvy t (by simp [ht])
      have h2 : (1 : ℕ) < 2 ^ w := one_lt_two_pow_of_pos hw
      have hzslt := valBE_lt zs hvz'
      have hyslt := valBE_lt ys hvy'
      simp only [SubtleInt.lessLoop, valBE]
      have hBEpow : (2 : ℕ) ^ (w * ys.length) = 2 ^ (w * zs.length) := by rw [hlen']
      rw [lessW_eq hw hz hy, lessW_eq hw hy hz]
      simp only [hBEpow]
      rw [hBEpow] at hyslt
      rcases Nat.lt_trichotomy z y with hcase | hcase | hcase
      · rw [if_pos hcase, if_neg (by omega), Nat.or_zero,
          show (1 : ℕ) &&& 1 = 1 from rfl, selectW_one hw h2,
          and_one_xor_mask hw (by omega), lessLoop_undecided_zero hw _ _ _ h2]
        have hm2 := Nat.mul_le_mul_right (2 ^ (w * zs.length)) (show z + 1 ≤ y by omega)
        rw [Nat.succ_mul] at hm2
        rw [if_pos (by omega)]
      · subst hcase
        rw [if_neg (by omega), Nat.or_zero,
          show (1 : ℕ) &&& 0 = 0 from rfl, selectW_zero hw (by omega),
          and_one_xor_mask hw (by omega)]
        rw [ih ys l hlen' hvz' hvy' hl]
        by_cases hv1 : valBE w zs < valBE w ys
        · rw [if_pos hv1, if_pos (by omega)]
        · by_cases hv2 : valBE w ys < valBE w zs
          · rw [if_neg hv1, if_pos hv2, if_neg (by omega), if_pos (by omega)]
          · rw [if_neg hv1, if_neg hv2, if_neg (by omega), if_neg (by omega)]
      · rw [if_neg (by omega), if_pos hcase, Nat.zero_or,
          show (1 : ℕ) &&& 1 = 1 from rfl, selectW_one hw (by omega),
          and_one_xor_mask hw (by omega), lessLoop_undecided_zero hw _ _ _ (by omega)]
        have hm2 := Nat.mul_le_mul_right (2 ^ (w * zs.length)) (show y + 1 ≤ z by omega)
        rw [Nat.succ_mul] at hm2
        rw [if_neg (by omega), if_pos (by omega)]

theorem Less_eq {w : ℕ} (hw : 0 < w) (z y : List ℕ) (hlen : z.length = y.length)
    (hvz : wordsValid w z) (hvy : wordsValid w y) :
    SubtleInt.Less w z y = if val w z < val w y then 1 else 0 := by
  unfold SubtleInt.Less
  rw [lessLoop_one_eq hw _ _ 0 (by simpa using hlen)
    (fun t ht => hvz t (by simpa using ht)) (fun t ht => hvy t (by simpa using ht))
    (by omega), ← val_eq_valBE_reverse, ← val_eq_valBE_reverse]
  by_cases h1 : val w z < val w y
  · rw [if_pos h1, if_pos h1]
  · rw [if_neg h1, if_neg h1, ite_self]

theorem AddMod_eq {w : ℕ} (hw : 0 < w) (x y n : List ℕ)
    (hlx : x.length = n.length) (hly : y.length = n.length)
    (hvx : wordsValid w x) (hvy : wordsValid w y) (hvn : wordsValid w n)
    (hsum : val w x + val w y < 2 ^ (w * n.length) + val w n) :
    ∃ r, SubtleInt.AddMod w x y n = some r ∧ r.length = n.length ∧ wordsValid w r ∧
      val w r = if val w x + val w y < val w n then val w x + val w y
        else val w x + val w y - val w n := by
  obtain ⟨hzlen, hzval, hc1, hzeq⟩ := Add_eq hw x y 0 (by omega) hvx hvy (by omega)
  obtain ⟨htlen, htval, hc2, hteq⟩ := Sub_eq hw (SubtleInt.Add w x y 0).1 n 0
    (by omega) hzval hvn (by omega)
  rw [hzlen, hlx] at hteq
  rw [hlx] at hzeq
  have hzlt := val_lt (SubtleInt.Add w x y 0).1 hzval
  rw [hzlen, hlx] at hzlt
  have htlt := val_lt (SubtleInt.Sub w (SubtleInt.Add w x y 0).1 n 0).1 htval
  rw [htlen, hzlen, hlx] at htlt
  have hnlt := val_lt n hvn
  simp only [SubtleInt.AddMod]
  rcases Nat.le_one_iff_eq_zero_or_eq_one.mp hc1 with h1 | h1 <;>
    rcases Nat.le_one_iff_eq_zero_or_eq_one.mp hc2 with h2 | h2 <;>
    rw [h1] at hzeq <;> rw [h2] at hteq <;> rw [h1, h2] <;>
    simp only [Nat.zero_mul, Nat.one_mul, Nat.add_zero, Nat.mul_zero,
      Nat.mul_one] at hzeq hteq
  · -- c1 = 0, c2 = 0 : no carry, subtraction did not borrow: n ≤ x + y < B
    rw [if_neg (by rw [Nat.zero_and]; omega),
      show (0 : ℕ) ^^^ 0 = 0 from rfl,
      Select_zero hw _ _ (by omega) htval]
    refine ⟨_, rfl, by omega, htval, ?_⟩
    rw [if_neg (by omega)]
    omega
  · -- c1 = 0, c2 = 1 : no carry, subtraction borrowed: x + y < n
    rw [if_neg (by rw [Nat.zero_and]; omega),
      show (0 : ℕ) ^^^ 1 = 1 from rfl,
      Select_one hw _ _ (by omega) hzval]
    refine ⟨_, rfl, by omega, hzval, ?_⟩
    rw [if_pos (by omega)]
    omega
  · -- c1 = 1, c2 = 0 : impossible under the precondition (would panic)
    exfalso
    omega
  · -- c1 = 1, c2 = 1 : carry and borrow, result is x + y - n
    rw [if_neg (by rw [and_one_xor_mask hw (by omega)]; omega),
      show (1 : ℕ) ^^^ 1 = 0 from rfl,
      Select_zero hw _ _ (by omega) htval]
    refine ⟨_, rfl, by omega, htval, ?_⟩
    rw [if_neg (by omega)]
    omega

end ListLemmas

/-! Byte conversion: Go `SubtleInt.SetBytes` and `SubtleInt.Bytes`. -/

namespace SubtleInt

/-- Models the loop of Go `SubtleInt.SetBytes`. The state `(i, s)` is the word
index (starting at the top word `len(z)-1`) and the bit offset inside that
word; for each byte `x` the code does `s -= 8` then `z[i] |= uint(x) << s`,
and when `s` reaches 0 it moves to the next lower word with `s` reset to `w`. -/
def setBytesLoop (w : ℕ) : List ℕ → ℕ → ℕ → List ℕ → List ℕ
  | z, _, _, [] => z
  | z, i, s, x :: buf =>
    let s' := s - 8
    let z' := z.set i (z.getD i 0 ||| (x <<< s'))
    if s' = 0 then setBytesLoop w z' (i - 1) w buf
    else setBytesLoop w z' i s' buf

/-- Models Go `SubtleInt.SetBytes` on a receiver of `k` words: the receiver is
first zeroed, then the loop starts at the most significant word with `s = w`. -/
def SetBytes (w k : ℕ) (buf : List ℕ) : List ℕ :=
  setBytesLoop w (List.replicate k 0) (k - 1) w buf

/-- Models one word of Go `SubtleInt.Bytes`: the inner loop emits the bytes
`uint8(x >> s)` for `s = 0, 8, …, w-8` at decreasing output positions, so the
word occupies `w/8` consecutive big-endian bytes. -/
def wordBytesBE (w x : ℕ) : List ℕ :=
  ((List.range (w / 8)).map (fun j => (x >>> (8 * j)) % 256)).reverse

/-- Models Go `SubtleInt.Bytes`: the output index starts at the end, so word 0
(least significant) fills the last `w/8` byte positions, word 1 the previous
ones, and so on: the reversed word list concatenates to the big-endian byte
string of the value. -/
def Bytes (w : ℕ) (z : List ℕ) : List ℕ :=
  (z.reverse.map (wordBytesBE w)).flatten

end SubtleInt

section BytesLemmas

theorem getD_set_self {l : List ℕ} {i : ℕ} (h : i < l.length) (v : ℕ) :
    (l.set i v).getD i 0 = v := by
  simp [List.getD_eq_getElem?_getD, List.getElem?_set_self h]

theorem getD_set_ne {l : List ℕ} {i j : ℕ} (h : i ≠ j) (v : ℕ) :
    (l.set i v).getD j 0 = l.getD j 0 := by
  simp [List.getD_eq_getElem?_getD, List.getElem?_set_ne h]

theorem getD_replicate_zero (k j : ℕ) : (List.replicate k (0 : ℕ)).getD j 0 = 0 := by
  by_cases h : j < k
  · simp [List.getD_eq_getElem?_getD, List.getElem?_replicate, h]
  · simp [List.getD_eq_getElem?_getD, List.getElem?_replicate, h]

theorem getD_mem_of_lt {l : List ℕ} {i : ℕ} (h : i < l.length) :
    l.getD i 0 ∈ l := by
  have he : l.getD i 0 = l[i] := by
    simp [List.getD_eq_getElem?_getD, List.getElem?_eq_getElem h]
  rw [he]
  exact List.getElem_mem h

theorem val_set {w : ℕ} (z : List ℕ) : ∀ (i v : ℕ), i < z.length →
    val w (z.set i v) + z.getD i 0 * 2 ^ (w * i) = val w z + v * 2 ^ (w * i) := by
  induction z with
  | nil => intro i v h; simp at h
  | cons d ds ih =>
    intro i v h
    cases i with
    | zero => simp [val, List.getD_cons_zero]; ring
    | succ i =>
      have hi : i < ds.length := by simpa using h
      have ihh := ih i v hi
      simp only [List.set_cons_succ, val, List.getD_cons_succ, List.length_cons]
      rw [show w * (i + 1) = w * i + w by ring, pow_add]
      calc d + 2 ^ w * val w (ds.set i v) + ds.getD i 0 * (2 ^ (w * i) * 2 ^ w)
          = d + 2 ^ w * (val w (ds.set i v) + ds.getD i 0 * 2 ^ (w * i)) := by ring
        _ = d + 2 ^ w * (val w ds + v * 2 ^ (w * i)) := by rw [ihh]
        _ = d + 2 ^ w * val w ds + v * (2 ^ (w * i) * 2 ^ w) := by ring

theorem setBytesLoop_eq {w : ℕ} (hw : 0 < w) (h8 : 8 ∣ w) (buf : List ℕ) :
    ∀ (z : List ℕ) (i s : ℕ), wordsValid w z → wordsValid 8 buf →
    8 ∣ s → 0 < s → s ≤ w →
    (buf ≠ [] → i < z.length) →
    8 * buf.length ≤ w * i + s →
    (∀ j, j < i → z.getD j 0 = 0) →
    z.getD i 0 % 2 ^ s = 0 →
    (SubtleInt.setBytesLoop w z i s buf).length = z.length ∧
    wordsValid w (SubtleInt.setBytesLoop w z i s buf) ∧
    val w (SubtleInt.setBytesLoop w z i s buf)
      = val w z + valBE 8 buf * 2 ^ (w * i + s - 8 * buf.length) := by
  induction buf with
  | nil =>
    intro z i s hvz _ _ _ _ _ _ _ _
    exact ⟨rfl, hvz, by simp [SubtleInt.setBytesLoop, valBE]⟩
  | cons x buf ih =>
    intro z i s hvz hvb h8s hs0 hsw hilen hroom hbelow hmod
    have hs8 : 8 ≤ s := (Nat.le_of_dvd hs0 h8s)
    have hx : x < 2 ^ 8 := hvb x (by simp)
    have hiz : i < z.length := hilen (by simp)
    have hcw : z.getD i 0 < 2 ^ w := hvz _ (getD_mem_of_lt hiz)
    have hxs : x <<< (s - 8) = x * 2 ^ (s - 8) := Nat.shiftLeft_eq x (s - 8)
    have hps : (2 : ℕ) ^ s = 2 ^ 8 * 2 ^ (s - 8) := by
      rw [← pow_add]
      congr 1
      omega
    have hb : x * 2 ^ (s - 8) < 2 ^ s := by
      rw [hps]
      exact Nat.mul_lt_mul_of_lt_of_le hx (Nat.le_refl _) (by positivity)
    have hca : 2 ^ s * (z.getD i 0 / 2 ^ s) = z.getD i 0 :=
      Nat.mul_div_cancel' (Nat.dvd_of_mod_eq_zero hmod)
    have hor : z.getD i 0 ||| x <<< (s - 8) = z.getD i 0 + x * 2 ^ (s - 8) := by
      have h1 := Nat.mul_add_lt_is_or hb (z.getD i 0 / 2 ^ s)
      rw [hca] at h1
      rw [hxs, ← h1]
    have hwsplit : (2 : ℕ) ^ w = 2 ^ s * 2 ^ (w - s) := by
      rw [← pow_add]
      congr 1
      omega
    have hdivlt : z.getD i 0 / 2 ^ s < 2 ^ (w - s) := by
      rw [Nat.div_lt_iff_lt_mul (by positivity)]
      rw [hwsplit] at hcw
      calc z.getD i 0 < 2 ^ s * 2 ^ (w - s) := hcw
        _ = 2 ^ (w - s) * 2 ^ s := by ring
    have hble : 2 ^ s * (z.getD i 0 / 2 ^ s) + 2 ^ s ≤ 2 ^ s * 2 ^ (w - s) := by
      rw [← Nat.mul_succ]
      exact Nat.mul_le_mul_left _ (by omega)
    have hnewlt : z.getD i 0 + x * 2 ^ (s - 8) < 2 ^ w := by
      rw [hwsplit]
      omega
    have hlen' : (z.set i (z.getD i 0 ||| x <<< (s - 8))).length = z.length := by simp
    have hvz' : wordsValid w (z.set i (z.getD i 0 ||| x <<< (s - 8))) := by
      intro t ht
      rcases List.mem_or_eq_of_mem_set ht with h | h
      · exact hvz t h
      · rw [h, hor]
        exact hnewlt
    have hvb' : wordsValid 8 buf := fun t ht => hvb t (by simp [ht])
    have hset := val_set (w := w) z i (z.getD i 0 ||| x <<< (s - 8)) hiz
    have hposexp : (2 : ℕ) ^ (s - 8) * 2 ^ (w * i) = 2 ^ (w * i + s - 8) := by
      rw [← pow_add]
      congr 1
      omega
    have hlink : (z.getD i 0 ||| x <<< (s - 8)) * 2 ^ (w * i)
        = z.getD i 0 * 2 ^ (w * i) + x * 2 ^ (w * i + s - 8) := by
      rw [hor, ← hposexp]
      ring
    have hval' : val w (z.set i (z.getD i 0 ||| x <<< (s - 8)))
        = val w z + x * 2 ^ (w * i + s - 8) := by omega
    by_cases hs' : s - 8 = 0
    · have hseq : s = 8 := by omega
      simp only [SubtleInt.setBytesLoop]
      rw [if_pos hs']
      by_cases hbe : buf = []
      · subst hbe
        simp only [SubtleInt.setBytesLoop]
        refine ⟨hlen', hvz', ?_⟩
        rw [hval']
        have hre : valBE 8 [x] * 2 ^ (w * i + s - 8 * [x].length)
            = x * 2 ^ (w * i + s - 8) := by
          simp [valBE]
        rw [hre]
      · have hige : 1 ≤ i := by
          rcases Nat.eq_zero_or_pos i with h0 | h0
          · subst h0
            simp only [List.length_cons, Nat.mul_zero, Nat.zero_add] at hroom
            have : buf.length = 0 := by omega
            exact absurd (List.eq_nil_of_length_eq_zero this) hbe
          · exact h0
        have hmuli : w * (i - 1) + w = w * i := by
          have h1 : i - 1 + 1 = i := by omega
          calc w * (i - 1) + w = w * ((i - 1) + 1) := by ring
            _ = w * i := by rw [h1]
        obtain ⟨l1, l2, l3⟩ := ih (z.set i (z.getD i 0 ||| x <<< (s - 8))) (i - 1) w
          hvz' hvb' h8 hw (Nat.le_refl w)
          (fun _ => by rw [hlen']; omega)
          (by simp only [List.length_cons] at hroom; omega)
          (fun j hj => by
            rw [getD_set_ne (by omega) _]
            exact hbelow j (by omega))
          (by
            rw [getD_set_ne (by omega) _, hbelow (i - 1) (by omega)]
            simp)
        refine ⟨by rw [l1, hlen'], l2, ?_⟩
        rw [l3, hval']
        simp only [valBE, List.length_cons]
        have he1 : w * (i - 1) + w - 8 * buf.length = w * i - 8 * buf.length := by omega
        have he2 : w * i + s - 8 * (buf.length + 1) = w * i - 8 * buf.length := by omega
        rw [he1, he2]
        have he3 : (2 : ℕ) ^ (8 * buf.length) * 2 ^ (w * i - 8 * buf.length)
            = 2 ^ (w * i) := by
          rw [← pow_add]
          congr 1
          simp only [List.length_cons] at hroom
          omega
        calc val w z + x * 2 ^ (w * i + s - 8)
              + valBE 8 buf * 2 ^ (w * i - 8 * buf.length)
            = val w z + x * 2 ^ (w * i)
              + valBE 8 buf * 2 ^ (w * i - 8 * buf.length) := by
              rw [show w * i + s - 8 = w * i by omega]
          _ = val w z + x * (2 ^ (8 * buf.length) * 2 ^ (w * i - 8 * buf.length))
              + valBE 8 buf * 2 ^ (w * i - 8 * buf.length) := by rw [he3]
          _ = val w z + (x * 2 ^ (8 * buf.length) + valBE 8 buf)
              * 2 ^ (w * i - 8 * buf.length) := by ring
    · simp only [SubtleInt.setBytesLoop]
      rw [if_neg hs']
      by_cases hbe : buf = []
      · subst hbe
        simp only [SubtleInt.setBytesLoop]
        refine ⟨hlen', hvz', ?_⟩
        rw [hval']
        simp [valBE]
      · obtain ⟨l1, l2, l3⟩ := ih (z.set i (z.getD i 0 ||| x <<< (s - 8))) i (s - 8)
          hvz' hvb' (Nat.dvd_sub' h8s (dvd_refl 8)) (by omega) (by omega)
          (fun _ => by rw [hlen']; exact hiz)
          (by simp only [List.length_cons] at hroom; omega)
          (fun j hj => by
            rw [getD_set_ne (by omega) _]
            exact hbelow j hj)
          (by
            rw [getD_set_self hiz, hor]
            have hd1 : (2 : ℕ) ^ (s - 8) ∣ z.getD i 0 :=
              dvd_trans (pow_dvd_pow 2 (by omega)) (Nat.dvd_of_mod_eq_zero hmod)
            have hd2 : (2 : ℕ) ^ (s - 8) ∣ x * 2 ^ (s - 8) := dvd_mul_left _ _
            exact Nat.mod_eq_zero_of_dvd (dvd_add hd1 hd2))
        refine ⟨by rw [l1, hlen'], l2, ?_⟩
        rw [l3, hval']
        simp only [valBE, List.length_cons]
        have he1 : w * i + (s - 8) - 8 * buf.length
            = w * i + s - 8 * (buf.length + 1) := by omega
        rw [he1]
        have he3 : (2 : ℕ) ^ (8 * buf.length) * 2 ^ (w * i + s - 8 * (buf.length + 1))
            = 2 ^ (w * i + s - 8) := by
          rw [← pow_add]
          congr 1
          simp only [List.length_cons] at hroom
          omega
        calc val w z + x * 2 ^ (w * i + s - 8)
              + valBE 8 buf * 2 ^ (w * i + s - 8 * (buf.length + 1))
            = val w z
              + x * (2 ^ (8 * buf.length) * 2 ^ (w * i + s - 8 * (buf.length + 1)))
              + valBE 8 buf * 2 ^ (w * i + s - 8 * (buf.length + 1)) := by rw [he3]
          _ = val w z + (x * 2 ^ (8 * buf.length) + valBE 8 buf)
              * 2 ^ (w * i + s - 8 * (buf.length + 1)) := by ring

theorem val_replicate_zero {w : ℕ} (k : ℕ) : val w (List.replicate k 0) = 0 := by
  induction k with
  | zero => rfl
  | succ k ih => simp [List.replicate_succ, val, ih]

theorem SetBytes_eq {w k : ℕ} (hw : 0 < w) (h8 : 8 ∣ w) (buf : List ℕ)
    (hvb : wordsValid 8 buf) (hroom : 8 * buf.length ≤ w * k) :
    (SubtleInt.SetBytes w k buf).length = k ∧
    wordsValid w (SubtleInt.SetBytes w k buf) ∧
    val w (SubtleInt.SetBytes w k buf) = valBE 8 buf * 2 ^ (w * k - 8 * buf.length) := by
  unfold SubtleInt.SetBytes
  have hv0 : wordsValid w (List.replicate k 0) := by
    intro t ht
    rw [List.eq_of_mem_replicate ht]
    positivity
  have hwk : 8 * buf.length ≤ w * (k - 1) + w := by
    rcases Nat.eq_zero_or_pos k with h0 | h0
    · subst h0
      rw [Nat.mul_zero] at hroom
      omega
    · have he : w * (k - 1) + w = w * k := by
        have h1 : k - 1 + 1 = k := by omega
        calc w * (k - 1) + w = w * ((k - 1) + 1) := by ring
          _ = w * k := by rw [h1]
      omega
  obtain ⟨l1, l2, l3⟩ := setBytesLoop_eq hw h8 buf (List.replicate k 0) (k - 1) w
    hv0 hvb h8 hw (Nat.le_refl w)
    (fun hne => by
      rw [List.length_replicate]
      have hpos := List.length_pos.mpr hne
      rcases Nat.eq_zero_or_pos k with h0 | h0
      · subst h0
        rw [Nat.mul_zero] at hroom
        omega
      · omega)
    hwk
    (fun j _ => getD_replicate_zero k j)
    (by rw [getD_replicate_zero]; simp)
  refine ⟨by rw [l1, List.length_replicate], l2, ?_⟩
  rw [l3, val_replicate_zero, Nat.zero_add]
  rcases Nat.eq_zero_or_pos k with h0 | h0
  · subst h0
    rw [Nat.mul_zero] at hroom
    have hb0 : buf = [] := List.eq_nil_of_length_eq_zero (by omega)
    subst hb0
    simp [valBE]
  · have he : w * (k - 1) + w = w * k := by
      have h1 : k - 1 + 1 = k := by omega
      calc w * (k - 1) + w = w * ((k - 1) + 1) := by ring
        _ = w * k := by rw [h1]
    congr 2
    omega

theorem valBE_append {w : ℕ} (a b : List ℕ) :
    valBE w (a ++ b) = valBE w a * 2 ^ (w * b.length) + valBE w b := by
  induction a with
  | nil => simp [valBE]
  | cons x a ih =>
    simp only [List.cons_append, valBE, List.append_eq, ih, List.length_append]
    rw [show w * (a.length + b.length) = w * a.length + w * b.length by ring, pow_add]
    ring

theorem wordBytesBE_spec (x : ℕ) : ∀ (m : ℕ),
    (((List.range m).map (fun j => (x >>> (8 * j)) % 256)).reverse).length = m ∧
    wordsValid 8 (((List.range m).map (fun j => (x >>> (8 * j)) % 256)).reverse) ∧
    valBE 8 (((List.range m).map (fun j => (x >>> (8 * j)) % 256)).reverse)
      = x % 2 ^ (8 * m) := by
  intro m
  induction m with
  | zero => exact ⟨rfl, by intro t ht; simp at ht, by simp [valBE, Nat.mod_one]⟩
  | succ m ih =>
    obtain ⟨ihlen, ihval, iheq⟩ := ih
    rw [List.range_succ]
    simp only [List.map_append, List.map_cons, List.map_nil, List.reverse_append,
      List.reverse_cons, List.reverse_nil, List.nil_append, List.cons_append,
      List.singleton_append]
    refine ⟨by simp [ihlen], ?_, ?_⟩
    · intro t ht
      simp only [List.mem_cons] at ht
      rcases ht with h | h
      · rw [h]
        exact Nat.mod_lt _ (by norm_num)
      · exact ihval t h
    · simp only [valBE, ihlen, iheq]

      rw [Nat.shiftRight_eq_div_pow]
      have hm : (2 : ℕ) ^ (8 * (m + 1)) = 2 ^ (8 * m) * 256 := by
        rw [show 8 * (m + 1) = 8 * m + 8 by ring, pow_add]
        norm_num
      rw [hm, Nat.mod_mul]
      ring

theorem wordBytesBE_len (w x : ℕ) : (SubtleInt.wordBytesBE w x).length = w / 8 :=
  (wordBytesBE_spec x (w / 8)).1

theorem wordBytesBE_valid (w x : ℕ) : wordsValid 8 (SubtleInt.wordBytesBE w x) :=
  (wordBytesBE_spec x (w / 8)).2.1

theorem wordBytesBE_val {w : ℕ} (h8 : 8 ∣ w) (x : ℕ) :
    valBE 8 (SubtleInt.wordBytesBE w x) = x % 2 ^ w := by
  have h := (wordBytesBE_spec x (w / 8)).2.2
  rwa [Nat.mul_div_cancel' h8] at h

theorem bytes_flatten_spec {w : ℕ} (hw : 0 < w) (h8 : 8 ∣ w) (l : List ℕ)
    (hv : wordsValid w l) :
    ((l.map (SubtleInt.wordBytesBE w)).flatten).length = (w / 8) * l.length ∧
    wordsValid 8 ((l.map (SubtleInt.wordBytesBE w)).flatten) ∧
    valBE 8 ((l.map (SubtleInt.wordBytesBE w)).flatten) = valBE w l := by
  induction l with
  | nil => exact ⟨by simp, by intro t ht; simp at ht, by simp [valBE]⟩
  | cons d rest ih =>
    obtain ⟨ihlen, ihval, iheq⟩ := ih (fun t ht => hv t (by simp [ht]))
    have hd : d < 2 ^ w := hv d (by simp)
    have hw8 : 8 * (w / 8) = w := Nat.mul_div_cancel' h8
    simp only [List.map_cons, List.flatten_cons]
    refine ⟨?_, ?_, ?_⟩
    · rw [List.length_append, ihlen, wordBytesBE_len, List.length_cons,
        Nat.mul_succ]
      omega
    · intro t ht
      simp only [List.mem_append] at ht
      rcases ht with h | h
      · exact wordBytesBE_valid w d t h
      · exact ihval t h
    · rw [valBE_append, ihlen, iheq, wordBytesBE_val h8, Nat.mod_eq_of_lt hd]
      simp only [valBE]
      have he : 8 * ((w / 8) * rest.length) = w * rest.length := by
        calc 8 * ((w / 8) * rest.length) = (8 * (w / 8)) * rest.length := by ring
          _ = w * rest.length := by rw [hw8]
      rw [he]

theorem Bytes_spec {w : ℕ} (hw : 0 < w) (h8 : 8 ∣ w) (z : List ℕ)
    (hv : wordsValid w z) :
    (SubtleInt.Bytes w z).length = (w / 8) * z.length ∧
    wordsValid 8 (SubtleInt.Bytes w z) ∧
    valBE 8 (SubtleInt.Bytes w z) = val w z := by
  unfold SubtleInt.Bytes
  obtain ⟨l1, l2, l3⟩ := bytes_flatten_spec hw h8 z.reverse
    (fun t ht => hv t (by simpa using ht))
  refine ⟨by rw [l1]; simp, l2, ?_⟩
  rw [l3, val_eq_valBE_reverse]

theorem valBE_take {w : ℕ} (l : List ℕ) (m : ℕ) (hm : m ≤ l.length)
    (hv : wordsValid w l) :
    valBE w (l.take m) = valBE w l / 2 ^ (w * (l.length - m)) := by
  have hsplit : l.take m ++ l.drop m = l := List.take_append_drop m l
  have hdlen : (l.drop m).length = l.length - m := List.length_drop m l
  have hdval : wordsValid w (l.drop m) := fun t ht => hv t (List.mem_of_mem_drop ht)
  have hdlt : valBE w (l.drop m) < 2 ^ (w * (l.length - m)) := by
    have := valBE_lt (l.drop m) hdval
    rwa [hdlen] at this
  have hval : valBE w l
      = 2 ^ (w * (l.length - m)) * valBE w (l.take m) + valBE w (l.drop m) := by
    conv_lhs => rw [← hsplit]
    rw [valBE_append, hdlen]
    ring
  rw [hval, Nat.mul_add_div (by positivity), Nat.div_eq_of_lt hdlt, Nat.add_zero]

theorem valBE_injective {w : ℕ} (hw : 0 < w) (a : List ℕ) : ∀ (b : List ℕ),
    a.length = b.length → wordsValid w a → wordsValid w b →
    valBE w a = valBE w b → a = b := by
  induction a with
  | nil =>
    intro b hlen _ _ _
    exact (List.eq_nil_of_length_eq_zero hlen.symm).symm
  | cons x a ih =>
    intro b hlen hva hvb heq
    cases b with
    | nil => simp at hlen
    | cons y b =>
      have hlen' : a.length = b.length := by simpa using hlen
      have halt := valBE_lt a (fun t ht => hva t (by simp [ht]))
      have hblt := valBE_lt b (fun t ht => hvb t (by simp [ht]))
      rw [← hlen'] at hblt
      simp only [valBE, ← hlen'] at heq
      have hx : x = y := by
        have h1 : (x * 2 ^ (w * a.length) + valBE w a) / 2 ^ (w * a.length) = x := by
          rw [Nat.mul_comm x, Nat.mul_add_div (by positivity),
            Nat.div_eq_of_lt halt, Nat.add_zero]
        have h2 : (y * 2 ^ (w * a.length) + valBE w b) / 2 ^ (w * a.length) = y := by
          rw [Nat.mul_comm y, Nat.mul_add_div (by positivity),
            Nat.div_eq_of_lt hblt, Nat.add_zero]
        rw [← h1, ← h2, heq]
      subst hx
      have htail : valBE w a = valBE w b := by omega
      rw [ih b hlen' (fun t ht => hva t (by simp [ht]))
        (fun t ht => hvb t (by simp [ht])) htail]

theorem valBE_replicate_zero {w : ℕ} (k : ℕ) : valBE w (List.replicate k 0) = 0 := by
  induction k with
  | zero => rfl
  | succ k ih => simp [List.replicate_succ, valBE, ih]

end BytesLemmas

/-- C7 counterexample: the claim says `SetBytes(buf)` preserves the integer
value of `buf` (zero-extending to the fixed width) for every `buf` no longer
than the width.  With 64-bit words, one word and the one-byte buffer `[1]`,
`SetBytes` stores `2^56` (the buffer is left-aligned at the top of the word),
not `1`, and `Bytes()` returns `[1, 0, …, 0]` rather than the big-endian
encoding `[0, …, 0, 1]` of the value 1. -/
theorem C7_counterexample :
    [(1 : ℕ)].length ≤ 64 / 8 * 1 ∧
    val 64 (SubtleInt.SetBytes 64 1 [(1 : ℕ)]) ≠ valBE 8 [(1 : ℕ)] ∧
    SubtleInt.Bytes 64 (SubtleInt.SetBytes 64 1 [(1 : ℕ)])
      ≠ [0, 0, 0, 0, 0, 0, 0, 1] := by
  decide

/-- C7 amended: for a byte buffer no longer than the fixed width,
`SetBytes(buf)` left-aligns the buffer: the SubtleInt represents
`buf * 2^(width - 8*len(buf))` (so the integer value of `buf` is preserved
exactly when `buf` fills the whole width), and `Bytes()` afterwards returns
`buf` followed by zero padding on the right. -/
theorem C7_setBytes_left_aligned {w k : ℕ} (hw : 0 < w) (h8 : 8 ∣ w)
    (buf : List ℕ) (hvb : wordsValid 8 buf) (hlen : buf.length ≤ (w / 8) * k) :
    val w (SubtleInt.SetBytes w k buf)
      = valBE 8 buf * 2 ^ (w * k - 8 * buf.length) ∧
    SubtleInt.Bytes w (SubtleInt.SetBytes w k buf)
      = buf ++ List.replicate ((w / 8) * k - buf.length) 0 := by
  have hw8 : 8 * (w / 8) = w := Nat.mul_div_cancel' h8
  have hroom : 8 * buf.length ≤ w * k := by
    calc 8 * buf.length ≤ 8 * ((w / 8) * k) := by omega
      _ = (8 * (w / 8)) * k := by ring
      _ = w * k := by rw [hw8]
  obtain ⟨slen, sval, seq⟩ := SetBytes_eq hw h8 buf hvb hroom
  refine ⟨seq, ?_⟩
  obtain ⟨blen, bval, beq⟩ := Bytes_spec hw h8 _ sval
  apply valBE_injective (w := 8) (by norm_num)
  · rw [blen, slen, List.length_append, List.length_replicate]
    omega
  · exact bval
  · intro t ht
    rcases List.mem_append.mp ht with h | h
    · exact hvb t h
    · rw [List.eq_of_mem_replicate h]
      norm_num
  · rw [beq, seq, valBE_append, valBE_replicate_zero, List.length_replicate,
      Nat.add_zero]
    have hprod : w * k = 8 * (w / 8 * k) := by
      calc w * k = (8 * (w / 8)) * k := by rw [hw8]
        _ = 8 * (w / 8 * k) := by ring
    congr 2
    omega

/-- C7 amended witness: one 64-bit word, three-byte buffer `[1, 2, 3]`
(the `TestBytesTrunc` scenario). -/
theorem C7_setBytes_left_aligned_witness :
    ((0 : ℕ) < 64 ∧ (8 : ℕ) ∣ 64 ∧ [(1 : ℕ), 2, 3].length ≤ 64 / 8 * 1) ∧
    (val 64 (SubtleInt.SetBytes 64 1 [(1 : ℕ), 2, 3])
      = valBE 8 [(1 : ℕ), 2, 3] * 2 ^ (64 * 1 - 8 * [(1 : ℕ), 2, 3].length) ∧
    SubtleInt.Bytes 64 (SubtleInt.SetBytes 64 1 [(1 : ℕ), 2, 3])
      = [(1 : ℕ), 2, 3] ++ List.replicate (64 / 8 * 1 - [(1 : ℕ), 2, 3].length) 0) :=
  ⟨by decide, C7_setBytes_left_aligned (by decide) (by decide) [1, 2, 3]
    (by decide) (by decide)⟩

/-! Big integers of the Go standard library: the two operations the package
reads from `math/big` on nonnegative integers, `BitLen` and `Bytes`.
Both are written with a structurally decreasing fuel argument (initialised
to the number itself, an upper bound on the recursion depth) so that they
are kernel-computable. -/

/-- Fuel-driven helper for `bitLen`. -/
def bitLenAux : ℕ → ℕ → ℕ
  | 0, _ => 0
  | f + 1, n => if n = 0 then 0 else bitLenAux f (n / 2) + 1

/-- Models `big.Int.BitLen` for nonnegative integers: the length of the
binary representation (0 for 0). -/
def bitLen (n : ℕ) : ℕ := bitLenAux n n

/-- Fuel-driven helper for `natBytes`. -/
def natBytesAux : ℕ → ℕ → List ℕ
  | 0, _ => []
  | f + 1, n => if n = 0 then [] else natBytesAux f (n / 256) ++ [n % 256]

/-- Models `big.Int.Bytes` for nonnegative integers: the minimal big-endian
byte string (empty for 0, no leading zero bytes). -/
def natBytes (n : ℕ) : List ℕ := natBytesAux n n

section BigIntLemmas

theorem bitLenAux_fuel : ∀ (f1 f2 n : ℕ), n ≤ f1 → n ≤ f2 →
    bitLenAux f1 n = bitLenAux f2 n := by
  intro f1
  induction f1 with
  | zero =>
    intro f2 n h1 _
    have hn : n = 0 := by omega
    subst hn
    cases f2 <;> simp [bitLenAux]
  | succ f1 ih =>
    intro f2 n h1 h2
    cases f2 with
    | zero =>
      have hn : n = 0 := by omega
      subst hn
      simp [bitLenAux]
    | succ f2 =>
      simp only [bitLenAux]
      by_cases h : n = 0
      · simp [h]
      · rw [if_neg h, if_neg h, ih f2 (n / 2) (by omega) (by omega)]

theorem bitLen_eq (n : ℕ) : bitLen n = if n = 0 then 0 else bitLen (n / 2) + 1 := by
  by_cases h : n = 0
  · subst h
    simp [bitLen, bitLenAux]
  · rw [if_neg h]
    obtain ⟨m, rfl⟩ := Nat.exists_eq_succ_of_ne_zero h
    unfold bitLen
    simp only [bitLenAux, if_neg h]
    rw [bitLenAux_fuel m ((m + 1) / 2) ((m + 1) / 2) (by omega) (by omega)]

theorem bitLen_lt (n : ℕ) : n < 2 ^ bitLen n := by
  induction n using Nat.strong_induction_on with
  | _ n ih =>
    rw [bitLen_eq]
    by_cases h : n = 0
    · simp [h]
    · rw [if_neg h, pow_succ]
      have := ih (n / 2) (by omega)
      omega

theorem bitLen_le (n : ℕ) (h : 0 < n) : 2 ^ (bitLen n - 1) ≤ n := by
  induction n using Nat.strong_induction_on with
  | _ n ih =>
    rw [bitLen_eq, if_neg (by omega)]
    by_cases h2 : n / 2 = 0
    · rw [h2, show bitLen 0 = 0 from rfl]
      have he : (2 : ℕ) ^ (0 + 1 - 1) = 1 := by norm_num
      omega
    · have hpos : 0 < bitLen (n / 2) := by
        rw [bitLen_eq, if_neg h2]
        omega
      have hle := ih (n / 2) (by omega) (by omega)
      have hrw : (2 : ℕ) ^ (bitLen (n / 2) + 1 - 1) = 2 ^ (bitLen (n / 2) - 1) * 2 := by
        rw [← pow_succ]
        congr 1
        omega
      rw [hrw]
      omega

theorem bitLen_eq_of_bounds {n b : ℕ} (h1 : 2 ^ (b - 1) ≤ n) (h2 : n < 2 ^ b)
    (hb : 0 < b) (hn : 0 < n) : bitLen n = b := by
  have hl := bitLen_le n hn
  have hu := bitLen_lt n
  by_contra hne
  rcases Nat.lt_or_ge (bitLen n) b with h | h
  · have : (2 : ℕ) ^ bitLen n ≤ 2 ^ (b - 1) :=
      Nat.pow_le_pow_right (by norm_num) (by omega)
    omega
  · have : (2 : ℕ) ^ b ≤ 2 ^ (bitLen n - 1) :=
      Nat.pow_le_pow_right (by norm_num) (by omega)
    omega

theorem natBytesAux_fuel : ∀ (f1 f2 n : ℕ), n ≤ f1 → n ≤ f2 →
    natBytesAux f1 n = natBytesAux f2 n := by
  intro f1
  induction f1 with
  | zero =>
    intro f2 n h1 _
    have hn : n = 0 := by omega
    subst hn
    cases f2 <;> simp [natBytesAux]
  | succ f1 ih =>
    intro f2 n h1 h2
    cases f2 with
    | zero =>
      have hn : n = 0 := by omega
      subst hn
      simp [natBytesAux]
    | succ f2 =>
      simp only [natBytesAux]
      by_cases h : n = 0
      · simp [h]
      · rw [if_neg h, if_neg h, ih f2 (n / 256) (by omega) (by omega)]

theorem natBytes_eq (n : ℕ) :
    natBytes n = if n = 0 then [] else natBytes (n / 256) ++ [n % 256] := by
  by_cases h : n = 0
  · subst h
    simp [natBytes, natBytesAux]
  · rw [if_neg h]
    obtain ⟨m, rfl⟩ := Nat.exists_eq_succ_of_ne_zero h
    unfold natBytes
    simp only [natBytesAux, if_neg h]
    rw [natBytesAux_fuel m ((m + 1) / 256) ((m + 1) / 256) (by omega) (by omega)]

theorem natBytes_spec (n : ℕ) :
    valBE 8 (natBytes n) = n ∧ wordsValid 8 (natBytes n) := by
  induction n using Nat.strong_induction_on with
  | _ n ih =>
    rw [natBytes_eq]
    by_cases h : n = 0
    · subst h
      exact ⟨by simp [valBE], by intro t ht; simp at ht⟩
    · rw [if_neg h]
      obtain ⟨ihval, ihok⟩ := ih (n / 256) (by omega)
      constructor
      · rw [valBE_append_single, ihval]
        omega
      · intro t ht
        rcases List.mem_append.mp ht with h1 | h1
        · exact ihok t h1
        · simp only [List.mem_singleton] at h1
          rw [h1]
          have : n % 256 < 256 := Nat.mod_lt _ (by norm_num)
          simpa using this

theorem bitLen_div256 {n : ℕ} (h : 256 ≤ n) :
    bitLen (n / 256) = bitLen n - 8 := by
  have hn : 0 < n := by omega
  have hl := bitLen_le n hn
  have hu := bitLen_lt n
  have hb9 : 9 ≤ bitLen n := by
    by_contra hc
    have : (2 : ℕ) ^ bitLen n ≤ 2 ^ 8 := Nat.pow_le_pow_right (by norm_num) (by omega)
    norm_num at this
    omega
  apply bitLen_eq_of_bounds
  · have hsp : (2 : ℕ) ^ (bitLen n - 1) = 2 ^ (bitLen n - 8 - 1) * 2 ^ 8 := by
      rw [← pow_add]
      congr 1
      omega
    rw [hsp] at hl
    calc 2 ^ (bitLen n - 8 - 1) = 2 ^ (bitLen n - 8 - 1) * 2 ^ 8 / 2 ^ 8 := by
          rw [Nat.mul_div_cancel _ (by norm_num)]
      _ ≤ n / 2 ^ 8 := Nat.div_le_div_right hl
      _ = n / 256 := by norm_num
  · rw [Nat.div_lt_iff_lt_mul (by norm_num)]
    calc n < 2 ^ bitLen n := hu
      _ = 2 ^ (bitLen n - 8) * 256 := by
        rw [show (256 : ℕ) = 2 ^ 8 by norm_num, ← pow_add]
        congr 1
        omega
  · omega
  · exact (Nat.one_le_div_iff (by norm_num)).mpr h

theorem natBytes_length (n : ℕ) : (natBytes n).length = (bitLen n + 7) / 8 := by
  induction n using Nat.strong_induction_on with
  | _ n ih =>
    rw [natBytes_eq]
    by_cases h : n = 0
    · subst h
      simp [show bitLen 0 = 0 from rfl]
    · rw [if_neg h, List.length_append, List.length_cons, List.length_nil,
        ih (n / 256) (by omega)]
      by_cases h256 : 256 ≤ n
      · rw [bitLen_div256 h256]
        have hb9 : 9 ≤ bitLen n := by
          by_contra hc
          have hu := bitLen_lt n
          have h2 : (2 : ℕ) ^ bitLen n ≤ 2 ^ 8 :=
            Nat.pow_le_pow_right (by norm_num) (by omega)
          norm_num at h2
          omega
        omega
      · have h0 : n / 256 = 0 := by omega
        rw [h0, show bitLen 0 = 0 from rfl]
        have hble : bitLen n ≤ 8 := by
          by_contra hc
          have hl := bitLen_le n (by omega)
          have h2 : (2 : ℕ) ^ 8 ≤ 2 ^ (bitLen n - 1) :=
            Nat.pow_le_pow_right (by norm_num) (by omega)
          norm_num at h2
          omega
        have hbpos : 0 < bitLen n := by
          rw [bitLen_eq, if_neg h]
          omega
        omega

end BigIntLemmas

/-! Key generation: Go `GenerateKey`. -/

/-- The Go package-level table `genMask`. -/
def genMask : List ℕ := [0xff, 0x1, 0x3, 0x7, 0xf, 0x1f, 0x3f, 0x7f]

/-- Models the two in-place byte tweaks in `GenerateKey`'s loop body:
`priv[0] &= genMask[numBits%8]` (mask excess top bits) followed by
`priv[1] ^= 0x42` (break the all-zero test-RNG case). -/
def maskCandidate (numBits : ℕ) (priv : List ℕ) : List ℕ :=
  let p0 := priv.set 0 ((priv.getD 0 0) &&& genMask.getD (numBits % 8) 0)
  p0.set 1 ((p0.getD 1 0) ^^^ 0x42)

/-- Models the rejection-sampling loop of Go `GenerateKey`: read `numBytes`
bytes from the stream (a short stream is the wrapped read error), mask, load
into `tmp` and accept iff `tmp.Less(constN) == 1`; `fuel` bounds the number
of iterations of the unbounded Go loop. -/
def generateKeyLoop (w numBits numBytes : ℕ) (constN : List ℕ) :
    ℕ → List ℕ → Option (List ℕ × List ℕ)
  | 0, _ => none
  | fuel + 1, rand =>
    if rand.length < numBytes then none
    else
      let priv := maskCandidate numBits (rand.take numBytes)
      let tmp := SubtleInt.SetBytes w (SubtleIntSize w numBits) priv
      if SubtleInt.Less w tmp constN = 1 then some (priv, rand.drop numBytes)
      else generateKeyLoop w numBits numBytes constN fuel (rand.drop numBytes)

/-- Models Go `GenerateKey` for a curve whose base-point subgroup has order
`N`, returning the private scalar together with the unread rest of the random
stream. -/
def GenerateKey (w N fuel : ℕ) (rand : List ℕ) : Option (List ℕ × List ℕ) :=
  let numBits := bitLen N
  let numBytes := (numBits + 7) >>> 3
  let constN := SubtleInt.SetBytes w (SubtleIntSize w numBits) (natBytes N)
  generateKeyLoop w numBits numBytes constN fuel rand

section GenerateKeyLemmas

theorem numBytes_shift (numBits : ℕ) : (numBits + 7) >>> 3 = (numBits + 7) / 8 := by
  rw [Nat.shiftRight_eq_div_pow]

theorem SubtleIntSize_ge {w numBits : ℕ} (hw : 0 < w) (h8 : 8 ∣ w) :
    8 * ((numBits + 7) / 8) ≤ w * SubtleIntSize w numBits := by
  have hw8 : 8 * (w / 8) = w := Nat.mul_div_cancel' h8
  have hws : 0 < w / 8 := by omega
  unfold SubtleIntSize
  rw [numBytes_shift]
  have hdm := Nat.div_add_mod ((numBits + 7) / 8 + w / 8 - 1) (w / 8)
  have hmod : ((numBits + 7) / 8 + w / 8 - 1) % (w / 8) < w / 8 := Nat.mod_lt _ hws
  have hK : (numBits + 7) / 8
      ≤ (w / 8) * (((numBits + 7) / 8 + w / 8 - 1) / (w / 8)) := by omega
  calc 8 * ((numBits + 7) / 8)
      ≤ 8 * ((w / 8) * (((numBits + 7) / 8 + w / 8 - 1) / (w / 8))) := by omega
    _ = (8 * (w / 8)) * (((numBits + 7) / 8 + w / 8 - 1) / (w / 8)) := by ring
    _ = w * (((numBits + 7) / 8 + w / 8 - 1) / (w / 8)) := by rw [hw8]

theorem genMask_lt (r : ℕ) (hr : r < 8) : genMask.getD r 0 < 256 := by
  interval_cases r <;> decide

theorem maskCandidate_spec {numBits : ℕ} {priv : List ℕ}
    (hv : wordsValid 8 priv) :
    (maskCandidate numBits priv).length = priv.length ∧
    wordsValid 8 (maskCandidate numBits priv) := by
  have hmask : genMask.getD (numBits % 8) 0 < 256 :=
    genMask_lt _ (Nat.mod_lt _ (by norm_num))
  have hp0 : wordsValid 8
      (priv.set 0 ((priv.getD 0 0) &&& genMask.getD (numBits % 8) 0)) := by
    intro t ht
    rcases List.mem_or_eq_of_mem_set ht with h2 | h2
    · exact hv t h2
    · rw [h2]
      have hand := Nat.and_le_right (n := priv.getD 0 0)
        (m := genMask.getD (numBits % 8) 0)
      omega
  refine ⟨by simp [maskCandidate], ?_⟩
  intro t ht
  unfold maskCandidate at ht
  rcases List.mem_or_eq_of_mem_set ht with h1 | h1
  · exact hp0 t h1
  · rw [h1]
    have hg : (priv.set 0 ((priv.getD 0 0) &&& genMask.getD (numBits % 8) 0)).getD 1 0
        < 2 ^ 8 := by
      by_cases hl : 1 <
          (priv.set 0 ((priv.getD 0 0) &&& genMask.getD (numBits % 8) 0)).length
      · exact hp0 _ (getD_mem_of_lt hl)
      · rw [List.getD_eq_default _ _ (by omega)]
        norm_num
    exact Nat.xor_lt_two_pow hg (by norm_num)

theorem generateKeyLoop_out {w numBits : ℕ} (hw : 0 < w) (constN : List ℕ) :
    ∀ (fuel : ℕ) (rand out rest : List ℕ), wordsValid 8 rand →
    generateKeyLoop w numBits ((numBits + 7) >>> 3) constN fuel rand
      = some (out, rest) →
    out.length = (numBits + 7) / 8 ∧ wordsValid 8 out ∧
    SubtleInt.Less w (SubtleInt.SetBytes w (SubtleIntSize w numBits) out) constN
      = 1 := by
  intro fuel
  induction fuel with
  | zero =>
    intro rand out rest _ h
    simp [generateKeyLoop] at h
  | succ fuel ih =>
    intro rand out rest hrand h
    simp only [generateKeyLoop] at h
    by_cases hshort : rand.length < (numBits + 7) >>> 3
    · rw [if_pos hshort] at h
      simp at h
    · rw [if_neg hshort] at h
      by_cases hacc : SubtleInt.Less w
          (SubtleInt.SetBytes w (SubtleIntSize w numBits)
            (maskCandidate numBits (rand.take ((numBits + 7) >>> 3)))) constN = 1
      · rw [if_pos hacc, Option.some_inj, Prod.mk.injEq] at h
        obtain ⟨h1, h2⟩ := h
        subst h1
        have hvt : wordsValid 8 (rand.take ((numBits + 7) >>> 3)) :=
          fun t ht => hrand t (List.mem_of_mem_take ht)
        obtain ⟨hml, hmv⟩ := @maskCandidate_spec numBits _ hvt
        refine ⟨?_, hmv, hacc⟩
        rw [hml, List.length_take, numBytes_shift]
        rw [numBytes_shift] at hshort
        exact Nat.min_eq_left (by omega)
      · rw [if_neg hacc] at h
        exact ih (rand.drop ((numBits + 7) >>> 3)) out rest
          (fun t ht => hrand t (List.mem_of_mem_drop ht)) h

theorem GenerateKey_out {w N fuel : ℕ} {rand out rest : List ℕ}
    (hw : 0 < w) (h8 : 8 ∣ w) (hrand : wordsValid 8 rand)
    (h : GenerateKey w N fuel rand = some (out, rest)) :
    out.length = (bitLen N + 7) / 8 ∧ wordsValid 8 out ∧ valBE 8 out < N := by
  unfold GenerateKey at h
  obtain ⟨hlen, hvo, hless⟩ := generateKeyLoop_out hw _ fuel rand out rest hrand h
  refine ⟨hlen, hvo, ?_⟩
  have hNs := natBytes_spec N
  have hNl := natBytes_length N
  have hksz := @SubtleIntSize_ge w (bitLen N) hw h8
  obtain ⟨cl, cv, ceq⟩ := SetBytes_eq hw h8 (natBytes N) hNs.2 (by rw [hNl]; exact hksz)
  obtain ⟨ol, ov, oeq⟩ := SetBytes_eq hw h8 out hvo (by rw [hlen]; exact hksz)
  rw [Less_eq hw _ _ (by rw [ol, cl]) ov cv, oeq, ceq, hNs.1, hlen, hNl] at hless
  by_cases hc : valBE 8 out
        * 2 ^ (w * SubtleIntSize w (bitLen N) - 8 * ((bitLen N + 7) / 8))
      < N * 2 ^ (w * SubtleIntSize w (bitLen N) - 8 * ((bitLen N + 7) / 8))
  · exact lt_of_mul_lt_mul_right hc (Nat.zero_le _)
  · rw [if_neg hc] at hless
    omega

end GenerateKeyLemmas

/-- Order of the NIST P-224 base-point subgroup
(`elliptic.P224().Params().N` in crypto/elliptic). -/
def p224Order : ℕ := 0xffffffffffffffffffffffffffff16a2e0b8f03e13dd29455c5c2a3d

set_option maxRecDepth 100000 in
/-- C4 counterexample: the claim says every successful `GenerateKey` output
satisfies `1 ≤ k` for every random byte source, the `^0x42` trick ruling out
zero.  For the random source whose second byte is 0x42 (all other bytes 0) on
P-224 with 64-bit words, the first candidate is accepted and the returned
scalar is the all-zero byte string, i.e. `k = 0`. -/
theorem C4_counterexample :
    GenerateKey 64 p224Order 1 (0 :: 0x42 :: List.replicate 26 0)
      = some (List.replicate 28 0, []) ∧
    valBE 8 (List.replicate 28 0) = 0 := by
  constructor
  · decide
  · decide

/-- C4 amended: for every curve parameter set, word size, fuel and random
byte source, a successful `GenerateKey` return `k`, read big-endian, satisfies
`k < n` and has exactly `⌈bits(n)/8⌉` bytes; `1 ≤ k` is not guaranteed for
arbitrary random sources (the `^0x42` trick only rules out the all-zero
candidate produced by a deterministic all-zero test RNG). -/
theorem C4_generateKey_lt {w N fuel : ℕ} {rand out rest : List ℕ}
    (hw : 0 < w) (h8 : 8 ∣ w) (hrand : wordsValid 8 rand)
    (h : GenerateKey w N fuel rand = some (out, rest)) :
    valBE 8 out < N ∧ out.length = (bitLen N + 7) / 8 :=
  ⟨(GenerateKey_out hw h8 hrand h).2.2, (GenerateKey_out hw h8 hrand h).1⟩

set_option maxRecDepth 100000 in
/-- C4 amended witness: P-224 with the all-zero test RNG; the accepted
candidate is `0x42 · 2^208` which is below the group order. -/
theorem C4_generateKey_lt_witness :
    ((0 : ℕ) < 64 ∧ (8 : ℕ) ∣ 64 ∧ wordsValid 8 (List.replicate 28 0) ∧
      GenerateKey 64 p224Order 1 (List.replicate 28 0)
        = some (0 :: 0x42 :: List.replicate 26 0, [])) ∧
    (valBE 8 (0 :: 0x42 :: List.replicate 26 0) < p224Order ∧
      (0 :: 0x42 :: List.replicate 26 0).length = (bitLen p224Order + 7) / 8) :=
  ⟨by decide,
    @C4_generateKey_lt 64 p224Order 1 (List.replicate 28 0)
      (0 :: 0x42 :: List.replicate 26 0) []
      (by decide) (by decide) (by decide) (by decide)⟩

/-! `BlindKey`. -/

/-- Models Go `BlindKey`: blinds `priv` with a random `b` from `GenerateKey`,
returning `(priv + b) mod n` and `n - b` as `numBytes`-byte strings, together
with the unread rest of the random stream.  `none` models the error returns
(oversized `priv`, key-generation failure) and the `AddMod` panic; the dead
store `privConst` of the Go code has no observable effect. -/
def BlindKey (w : ℕ) (priv : List ℕ) (N fuel : ℕ) (rand : List ℕ) :
    Option (List ℕ × List ℕ × List ℕ) :=
  let numBytes := (bitLen N + 7) >>> 3
  let k := SubtleIntSize w (8 * numBytes)
  let n := SubtleInt.SetBytes w k (natBytes N)
  if numBytes < priv.length then none
  else
    match GenerateKey w N fuel rand with
    | none => none
    | some (blindBytes, rest) =>
      let blind := SubtleInt.SetBytes w k blindBytes
      let privNew := SubtleInt.SetBytes w k priv
      match SubtleInt.AddMod w privNew blind n with
      | none => none
      | some privNew2 =>
        let blind2 := (SubtleInt.Sub w n blind 0).1
        some ((SubtleInt.Bytes w privNew2).take numBytes,
          (SubtleInt.Bytes w blind2).take numBytes, rest)

theorem SubtleIntSize_8mul (w numBits : ℕ) :
    SubtleIntSize w (8 * ((numBits + 7) >>> 3)) = SubtleIntSize w numBits := by
  unfold SubtleIntSize
  simp only [numBytes_shift]
  have h : (8 * ((numBits + 7) / 8) + 7) / 8 = (numBits + 7) / 8 := by omega
  rw [h]

theorem BlindKey_spec {w N fuel : ℕ} {priv rand p r rest : List ℕ}
    (hw : 0 < w) (h8 : 8 ∣ w) (hvp : wordsValid 8 priv) (hvr : wordsValid 8 rand)
    (h : BlindKey w priv N fuel rand = some (p, r, rest)) :
    ∃ bb, GenerateKey w N fuel rand = some (bb, rest) ∧
      priv.length ≤ (bitLen N + 7) / 8 ∧
      p.length = (bitLen N + 7) / 8 ∧ r.length = (bitLen N + 7) / 8 ∧
      wordsValid 8 p ∧ wordsValid 8 r ∧
      valBE 8 bb < N ∧
      valBE 8 r + valBE 8 bb = N ∧
      valBE 8 p % N
        = (valBE 8 priv * 2 ^ (8 * ((bitLen N + 7) / 8 - priv.length))
            + valBE 8 bb) % N := by
  simp only [BlindKey] at h
  rw [SubtleIntSize_8mul] at h
  simp only [numBytes_shift] at h
  split at h
  · exact absurd h (by simp)
  next hlen =>
  split at h
  · exact absurd h (by simp)
  next bb rest' hg =>
  split at h
  · exact absurd h (by simp)
  next privNew2 ha =>
  simp only [Option.some.injEq, Prod.mk.injEq] at h
  obtain ⟨hp, hr, hrest⟩ := h
  subst hrest
  obtain ⟨hbblen, hbbv, hblt⟩ := GenerateKey_out hw h8 hvr hg
  refine ⟨bb, hg, by omega, ?_⟩
  have hroom : 8 * ((bitLen N + 7) / 8) ≤ w * SubtleIntSize w (bitLen N) :=
    SubtleIntSize_ge hw h8
  have hw8 : 8 * (w / 8) = w := Nat.mul_div_cancel' h8
  obtain ⟨hnl, hnv, hnval⟩ := SetBytes_eq hw h8 (natBytes N) (natBytes_spec N).2
    (by rw [natBytes_length]; exact hroom)
  rw [(natBytes_spec N).1, natBytes_length] at hnval
  obtain ⟨hbl, hbv, hbval⟩ := SetBytes_eq hw h8 bb hbbv (by rw [hbblen]; exact hroom)
  rw [hbblen] at hbval
  obtain ⟨hpl, hpv, hpval⟩ := SetBytes_eq hw h8 priv hvp (by
    calc 8 * priv.length ≤ 8 * ((bitLen N + 7) / 8) := by omega
      _ ≤ w * SubtleIntSize w (bitLen N) := hroom)
  have hxhat : valBE 8 priv * 2 ^ (w * SubtleIntSize w (bitLen N) - 8 * priv.length)
      = (valBE 8 priv * 2 ^ (8 * ((bitLen N + 7) / 8 - priv.length)))
        * 2 ^ (w * SubtleIntSize w (bitLen N) - 8 * ((bitLen N + 7) / 8)) := by
    rw [Nat.mul_assoc, ← Nat.pow_add]
    have he : 8 * ((bitLen N + 7) / 8 - priv.length)
        + (w * SubtleIntSize w (bitLen N) - 8 * ((bitLen N + 7) / 8))
        = w * SubtleIntSize w (bitLen N) - 8 * priv.length := by omega
    rw [he]
  rw [hxhat] at hpval
  have hxlt : valBE 8 priv * 2 ^ (8 * ((bitLen N + 7) / 8 - priv.length))
      < 2 ^ (8 * ((bitLen N + 7) / 8)) := by
    have h1 := valBE_lt priv hvp
    calc valBE 8 priv * 2 ^ (8 * ((bitLen N + 7) / 8 - priv.length))
        < 2 ^ (8 * priv.length) * 2 ^ (8 * ((bitLen N + 7) / 8 - priv.length)) :=
          Nat.mul_lt_mul_right (Nat.pos_pow_of_pos _ (by omega)) |>.mpr h1
      _ = 2 ^ (8 * ((bitLen N + 7) / 8)) := by
          rw [← Nat.pow_add]
          congr 1
          omega
  have hNlt : N < 2 ^ (8 * ((bitLen N + 7) / 8)) := by
    have h1 := bitLen_lt N
    have h2 : (2 : ℕ) ^ bitLen N ≤ 2 ^ (8 * ((bitLen N + 7) / 8)) :=
      Nat.pow_le_pow_right (by omega) (by omega)
    omega
  set x := valBE 8 priv * 2 ^ (8 * ((bitLen N + 7) / 8 - priv.length)) with hxdef
  set b := valBE 8 bb with hbdef
  set σ := w * SubtleIntSize w (bitLen N) - 8 * ((bitLen N + 7) / 8) with hσdef
  have hσpow : (0 : ℕ) < 2 ^ σ := Nat.pos_pow_of_pos _ (by omega)
  have hBpow : 2 ^ (8 * ((bitLen N + 7) / 8)) * 2 ^ σ
      = 2 ^ (w * SubtleIntSize w (bitLen N)) := by
    rw [← Nat.pow_add]
    congr 1
    omega
  have hsum : val w (SubtleInt.SetBytes w (SubtleIntSize w (bitLen N)) priv)
      + val w (SubtleInt.SetBytes w (SubtleIntSize w (bitLen N)) bb)
      < 2 ^ (w * (SubtleInt.SetBytes w (SubtleIntSize w (bitLen N)) (natBytes N)).length)
        + val w (SubtleInt.SetBytes w (SubtleIntSize w (bitLen N)) (natBytes N)) := by
    rw [hpval, hbval, hnval, hnl]
    have h1 : x * 2 ^ σ < 2 ^ (8 * ((bitLen N + 7) / 8)) * 2 ^ σ :=
      (Nat.mul_lt_mul_right hσpow).mpr hxlt
    have h2 : b * 2 ^ σ < N * 2 ^ σ := (Nat.mul_lt_mul_right hσpow).mpr hblt
    omega
  obtain ⟨r2, hr2eq, hr2len, hr2v, hr2val⟩ := AddMod_eq hw _ _ _
    (by rw [hpl, hnl]) (by rw [hbl, hnl]) hpv hbv hnv hsum
  rw [ha, Option.some.injEq] at hr2eq
  subst hr2eq
  rw [hpval, hbval, hnval] at hr2val
  have hmval : val w privNew2
      = (if x + b < N then x + b else x + b - N) * 2 ^ σ := by
    rw [hr2val, ← Nat.add_mul]
    by_cases hc : x + b < N
    · rw [if_pos ((Nat.mul_lt_mul_right hσpow).mpr hc), if_pos hc]
    · rw [if_neg (fun hcc => hc ((Nat.mul_lt_mul_right hσpow).mp hcc)),
        if_neg hc, Nat.sub_mul]
  obtain ⟨hsl, hsv, hsc, hseq⟩ := Sub_eq hw
    (SubtleInt.SetBytes w (SubtleIntSize w (bitLen N)) (natBytes N))
    (SubtleInt.SetBytes w (SubtleIntSize w (bitLen N)) bb) 0
    (by rw [hnl, hbl]) hnv hbv (by omega)
  rw [hnval, hbval, hnl] at hseq
  have hslt := val_lt _ hsv
  rw [hsl, hnl] at hslt
  have hbN : b * 2 ^ σ < N * 2 ^ σ := (Nat.mul_lt_mul_right hσpow).mpr hblt
  have hborrow : (SubtleInt.Sub w
      (SubtleInt.SetBytes w (SubtleIntSize w (bitLen N)) (natBytes N))
      (SubtleInt.SetBytes w (SubtleIntSize w (bitLen N)) bb) 0).2 = 0 := by
    rcases Nat.le_one_iff_eq_zero_or_eq_one.mp hsc with h0 | h1
    · exact h0
    · exfalso
      rw [h1, Nat.one_mul] at hseq
      have hNB : N * 2 ^ σ < 2 ^ (w * SubtleIntSize w (bitLen N)) := by
        have := (Nat.mul_lt_mul_right hσpow).mpr hNlt
        omega
      omega
  rw [hborrow, Nat.zero_mul, Nat.add_zero, Nat.add_zero] at hseq
  have hNbmul : (N - b) * 2 ^ σ + b * 2 ^ σ = N * 2 ^ σ := by
    rw [← Nat.add_mul, Nat.sub_add_cancel (by omega)]
  have hsval : val w (SubtleInt.Sub w
      (SubtleInt.SetBytes w (SubtleIntSize w (bitLen N)) (natBytes N))
      (SubtleInt.SetBytes w (SubtleIntSize w (bitLen N)) bb) 0).1
      = (N - b) * 2 ^ σ := by omega
  obtain ⟨hByl, hByv, hByval⟩ := Bytes_spec hw h8 privNew2 hr2v
  obtain ⟨hByl2, hByv2, hByval2⟩ := Bytes_spec hw h8 _ hsv
  have hknb : (bitLen N + 7) / 8 ≤ w / 8 * SubtleIntSize w (bitLen N) := by
    have : w * SubtleIntSize w (bitLen N)
        = 8 * (w / 8 * SubtleIntSize w (bitLen N)) := by
      rw [← Nat.mul_assoc, hw8]
    omega
  have hσ8 : 8 * (w / 8 * SubtleIntSize w (bitLen N) - (bitLen N + 7) / 8) = σ := by
    have h1 : 8 * (w / 8 * SubtleIntSize w (bitLen N))
        = w * SubtleIntSize w (bitLen N) := by
      rw [← Nat.mul_assoc, hw8]
    omega
  have hpvalBE : valBE 8 p = if x + b < N then x + b else x + b - N := by
    rw [← hp, valBE_take _ _ (by rw [hByl]; rw [hr2len, hnl]; exact hknb) hByv]
    rw [hByval, hByl, hr2len, hnl, hσ8, hmval, Nat.mul_div_cancel _ hσpow]
  have hrvalBE : valBE 8 r = N - b := by
    rw [← hr, valBE_take _ _ (by rw [hByl2]; rw [hsl, hnl]; exact hknb) hByv2]
    rw [hByval2, hByl2, hsl, hnl, hσ8, hsval, Nat.mul_div_cancel _ hσpow]
  refine ⟨?_, ?_, ?_, ?_, hblt, ?_, ?_⟩
  · rw [← hp, List.length_take, hByl, hr2len, hnl]
    exact Nat.min_eq_left hknb
  · rw [← hr, List.length_take, hByl2, hsl, hnl]
    exact Nat.min_eq_left hknb
  · intro t ht
    rw [← hp] at ht
    exact hByv t (List.mem_of_mem_take ht)
  · intro t ht
    rw [← hr] at ht
    exact hByv2 t (List.mem_of_mem_take ht)
  · rw [hrvalBE]
    omega
  · rw [hpvalBE]
    by_cases hc : x + b < N
    · rw [if_pos hc]
    · rw [if_neg hc]
      have hx : x + b = (x + b - N) + N := by omega
      conv_rhs => rw [hx, Nat.add_mod_right]

/-- The byte string `n - b` returned by `BlindKey` on P-224 with the all-zero
test RNG, where the blind is `b = 0x42 · 2^208`. -/
def p224RevInv : List ℕ :=
  [0xff, 0xbd, 0xff, 0xff, 0xff, 0xff, 0xff, 0xff, 0xff, 0xff, 0xff, 0xff,
   0xff, 0xff, 0x16, 0xa2, 0xe0, 0xb8, 0xf0, 0x3e, 0x13, 0xdd, 0x29, 0x45,
   0x5c, 0x5c, 0x2a, 0x3d]

set_option maxRecDepth 1000000 in
/-- C3 counterexample: the claim states the blinding identity
`(priv' + revInv) mod n = priv mod n` for every `priv` with
`len(priv) ≤ numBytes`.  On P-224 with the all-zero test RNG and the one-byte
input `priv = [1]`, `SetBytes` left-aligns `priv`, so the identity fails:
the two outputs sum to `2^216 mod n`, not to `1`. -/
theorem C3_counterexample :
    BlindKey 64 [1] p224Order 1 (List.replicate 28 0)
      = some (0x01 :: 0x42 :: List.replicate 26 0, p224RevInv, []) ∧
    (valBE 8 (0x01 :: 0x42 :: List.replicate 26 0) + valBE 8 p224RevInv)
        % p224Order ≠ valBE 8 [1] % p224Order := by
  constructor
  · decide
  · decide

/-- C3 amended: for every curve parameter set, word size, fuel and random
stream, and every `priv` of exactly `numBytes = ⌈bits(n)/8⌉` bytes (the
full-length encoding; shorter inputs are accepted but left-aligned by
`SetBytes`, breaking the identity), a successful `BlindKey` call returns
`(priv', revInv)` with `(priv' + revInv) mod n = priv mod n`, both read as
big-endian integers. -/
theorem C3_blinding_identity {w N fuel : ℕ} {priv rand p r rest : List ℕ}
    (hw : 0 < w) (h8 : 8 ∣ w) (hvp : wordsValid 8 priv) (hvr : wordsValid 8 rand)
    (hfull : priv.length = (bitLen N + 7) / 8)
    (h : BlindKey w priv N fuel rand = some (p, r, rest)) :
    (valBE 8 p + valBE 8 r) % N = valBE 8 priv % N := by
  obtain ⟨bb, _, _, _, _, _, _, hblt, hrv, hpv⟩ := BlindKey_spec hw h8 hvp hvr h
  rw [hfull, Nat.sub_self, Nat.mul_zero, Nat.pow_zero, Nat.mul_one] at hpv
  have h2 : (valBE 8 p + valBE 8 r) % N
      = (valBE 8 priv + valBE 8 bb + valBE 8 r) % N :=
    Nat.ModEq.add_right _ hpv
  have h3 : valBE 8 priv + valBE 8 bb + valBE 8 r = valBE 8 priv + N := by omega
  rw [h2, h3, Nat.add_mod_right]

set_option maxRecDepth 1000000 in
/-- C3 amended witness: P-224 with the all-zero test RNG and the full-length
all-zero `priv`; the outputs are `b = 0x42 · 2^208` and `n - b`, which sum to
`0 mod n`. -/
theorem C3_blinding_identity_witness :
    ((0 : ℕ) < 64 ∧ (8 : ℕ) ∣ 64 ∧ wordsValid 8 (List.replicate 28 0) ∧
      (List.replicate 28 (0 : ℕ)).length = (bitLen p224Order + 7) / 8 ∧
      BlindKey 64 (List.replicate 28 0) p224Order 1 (List.replicate 28 0)
        = some (0x00 :: 0x42 :: List.replicate 26 0, p224RevInv, [])) ∧
    (valBE 8 (0x00 :: 0x42 :: List.replicate 26 0) + valBE 8 p224RevInv)
        % p224Order = valBE 8 (List.replicate 28 0) % p224Order :=
  ⟨by decide,
    @C3_blinding_identity 64 p224Order 1 (List.replicate 28 0)
      (List.replicate 28 0) (0x00 :: 0x42 :: List.replicate 26 0) p224RevInv []
      (by decide) (by decide) (by decide) (by decide) (by decide) (by decide)⟩

/-! The MQV primitives.  The order-`n` base-point subgroup of a NIST curve is
cyclic, so its points are modelled by their discrete logarithms: a point is an
element of `ZMod n`, the base point is `1`, the point at infinity is `0`
(represented by Go `crypto/elliptic` as the coordinate pair `(0, 0)`, so the
`x.Sign() == 0` infinity test of `MQV` becomes `Z = 0`), `curve.Add` is `+`
and `curve.ScalarMult` multiplies by the scalar.  The x-coordinates that the
code reads (only ever fed to `avf`) are carried as separate `ℕ` arguments. -/

/-- The supported curve parameter sets; `other` is any curve outside the
four cases of Go `cofactor`, carrying its subgroup order. -/
inductive Curve where
  | P224
  | P256
  | P384
  | P521
  | other (order : ℕ)
deriving DecidableEq

/-- `params.N` for each curve: the order of the base-point subgroup. -/
def curveOrder : Curve → ℕ
  | .P224 => p224Order
  | .P256 => 0xffffffff00000000ffffffffffffffffbce6faada7179e84f3b9cac2fc632551
  | .P384 => 0xffffffffffffffffffffffffffffffffffffffffffffffffc7634d81f4372ddf581a0db248b0a77aecec196accc52973
  | .P521 => 0x01fffffffffffffffffffffffffffffffffffffffffffffffffffffffffffffffffa51868783bf2f966b7fcc0148f709a5d03bb5c9b8899c47aebb6fb71e91386409
  | .other n => n

/-- Models Go `cofactor`: `1` for the four NIST curves, an error otherwise. -/
def cofactor : Curve → Option ℕ
  | .other _ => none
  | _ => some 1

/-- Error values of the fallible MQV functions. -/
inductive MqvError where
  | unknownCofactor
  | blindFailed
  | sharedSecretAtInfinity
deriving DecidableEq

/-- Models Go `curve.ScalarMult` on the subgroup: the scalar is the
big-endian byte string `s`. -/
def scalarMult {n : ℕ} (P : ZMod n) (s : List ℕ) : ZMod n :=
  ((valBE 8 s : ℕ) : ZMod n) * P

/-- Models Go `curve.Add` on the subgroup. -/
def pointAdd {n : ℕ} (P Q : ZMod n) : ZMod n := P + Q

/-- Models Go `avf`, the associative value function:
`v = ((b - 1) & x) + b` with `b = 2^⌈f/2⌉`, `f = bits(N)`. -/
def avf (x N : ℕ) : ℕ :=
  let f := bitLen N
  let b := 1 <<< ((f + 1) / 2)
  ((b - 1) &&& x) + b

/-- Models Go `mqvSig`:
`h * ((ownEphemeralPriv + avf(ownEphemeralX) * ownStaticPriv) mod n)`,
returned as a big.Int byte string (the `Mul` by `h` happens after the `Mod`,
exactly as in the source). -/
def mqvSig (ownStaticPriv ownEphemeralPriv : List ℕ) (ownEphemeralX N h : ℕ) :
    List ℕ :=
  natBytes ((avf ownEphemeralX N * valBE 8 ownStaticPriv
    + valBE 8 ownEphemeralPriv) % N * h)

/-- Models Go `mqvBase`:
`otherEphemeral + avf(otherEphemeralX) * otherStatic`, with the scalar
multiplication consuming the byte string of the `avf` value. -/
def mqvBase {n : ℕ} (otherStatic otherEphemeral : ZMod n)
    (otherEphemeralX N : ℕ) : ZMod n :=
  pointAdd otherEphemeral (scalarMult otherStatic (natBytes (avf otherEphemeralX N)))

/-- Models Go `MQV`: look up the cofactor, compute `sig` and the base point,
multiply, and fail with the shared-secret-at-infinity error iff the result is
the point at infinity. -/
def MQV (c : Curve) (ownStaticPriv ownEphemeralPriv : List ℕ)
    (ownEphemeralX : ℕ) (otherStatic otherEphemeral : ZMod (curveOrder c))
    (otherEphemeralX : ℕ) : Except MqvError (ZMod (curveOrder c)) :=
  match cofactor c with
  | none => .error .unknownCofactor
  | some h =>
    let s := mqvSig ownStaticPriv ownEphemeralPriv ownEphemeralX (curveOrder c) h
    let B := mqvBase otherStatic otherEphemeral otherEphemeralX (curveOrder c)
    let Z := scalarMult B s
    if Z = 0 then .error .sharedSecretAtInfinity else .ok Z

/-- Models Go `BlindMQV`: blind both private keys with `BlindKey` (the second
call reads the random stream where the first one stopped), run the MQV signature
and scalar multiplication once with the blinded keys and once with the reverse
blinds, and return the sum of the two points — with no infinity check. -/
def BlindMQV (c : Curve) (ownStaticPriv ownEphemeralPriv : List ℕ)
    (ownEphemeralX : ℕ) (otherStatic otherEphemeral : ZMod (curveOrder c))
    (otherEphemeralX : ℕ) (w fuel : ℕ) (rand : List ℕ) :
    Except MqvError (ZMod (curveOrder c)) :=
  match cofactor c with
  | none => .error .unknownCofactor
  | some h =>
    match BlindKey w ownStaticPriv (curveOrder c) fuel rand with
    | none => .error .blindFailed
    | some (ownStaticPrivNew, ownStaticPrivRev, rand2) =>
      match BlindKey w ownEphemeralPriv (curveOrder c) fuel rand2 with
      | none => .error .blindFailed
      | some (ownEphemeralPrivNew, ownEphemeralPrivRev, _) =>
        let B := mqvBase otherStatic otherEphemeral otherEphemeralX (curveOrder c)
        let s1 := mqvSig ownStaticPrivNew ownEphemeralPrivNew ownEphemeralX
          (curveOrder c) h
        let z1 := scalarMult B s1
        let s2 := mqvSig ownStaticPrivRev ownEphemeralPrivRev ownEphemeralX
          (curveOrder c) h
        let z2 := scalarMult B s2
        .ok (pointAdd z1 z2)

/-- C5: for all equal-width SubtleInt operands `a, b, n` whose integer values
satisfy `1 < n`, `a < n` and `b < n`, `AddMod(a, b, n)` stores in the receiver
the word array whose integer value is `(a + b) mod n`. -/
theorem C5_addMod_correct {w : ℕ} (hw : 0 < w) (a b n : List ℕ)
    (hla : a.length = n.length) (hlb : b.length = n.length)
    (hva : wordsValid w a) (hvb : wordsValid w b) (hvn : wordsValid w n)
    (h1 : 1 < val w n) (hab : val w a < val w n) (hbb : val w b < val w n) :
    ∃ r, SubtleInt.AddMod w a b n = some r ∧ r.length = n.length ∧
      val w r = (val w a + val w b) % val w n := by
  have hnlt := val_lt n hvn
  obtain ⟨r, hr, hrlen, _, hval⟩ := AddMod_eq hw a b n hla hlb hva hvb hvn (by omega)
  refine ⟨r, hr, hrlen, ?_⟩
  rw [hval]
  by_cases hc : val w a + val w b < val w n
  · rw [if_pos hc, Nat.mod_eq_of_lt hc]
  · rw [if_neg hc, Nat.mod_eq_sub_mod (by omega), Nat.mod_eq_of_lt (by omega)]

/-- C5 witness: the S4 boundary case `add_mod(5, 4, 7) = 2` at word size 64. -/
theorem C5_addMod_correct_witness :
    ((0 : ℕ) < 64 ∧ 1 < val 64 [7] ∧ val 64 [5] < val 64 [7] ∧ val 64 [4] < val 64 [7]) ∧
    (∃ r, SubtleInt.AddMod 64 [5] [4] [7] = some r ∧ r.length = [7].length ∧
      val 64 r = (val 64 [5] + val 64 [4]) % val 64 [7]) :=
  ⟨by decide, C5_addMod_correct (by decide) [5] [4] [7] rfl rfl (by decide)
    (by decide) (by decide) (by decide) (by decide) (by decide)⟩

/-- C6 counterexample: the claim says the addition carry `c1 = 1` together with
the subtraction borrow `c2 = 1` is impossible for operands `0 ≤ x, y < n`.
With the 64-bit word size, `x = y = 2^64 - 2` and `n = 2^64 - 1` are valid
operands below `n`, yet `c1 = 1` and `c2 = 1` both hold, refuting the claim. -/
theorem C6_counterexample :
    (0 : ℕ) < 64 ∧ wordsValid 64 [18446744073709551614] ∧
    wordsValid 64 [18446744073709551615] ∧
    val 64 [18446744073709551614] < val 64 [18446744073709551615] ∧
    (SubtleInt.Add 64 [18446744073709551614] [18446744073709551614] 0).2 = 1 ∧
    (SubtleInt.Sub 64 (SubtleInt.Add 64 [18446744073709551614] [18446744073709551614] 0).1
      [18446744073709551615] 0).2 = 1 := by
  decide

/-- C6 amended: in `AddMod`, for operands `0 ≤ x, y < n` of equal width it is
the combination carry `c1 = 1` with borrow `c2 = 0` that is impossible, and
that is the case asserted by the code (`c1 &^ c2 == 1`), so the internal
assertion never fires; `c1 = 1` together with `c2 = 1` can occur. -/
theorem C6_assert_never_fires {w : ℕ} (hw : 0 < w) (x y n : List ℕ)
    (hlx : x.length = n.length) (hly : y.length = n.length)
    (hvx : wordsValid w x) (hvy : wordsValid w y) (hvn : wordsValid w n)
    (hx : val w x < val w n) (hy : val w y < val w n) :
    ¬ ((SubtleInt.Add w x y 0).2 = 1 ∧
        (SubtleInt.Sub w (SubtleInt.Add w x y 0).1 n 0).2 = 0) ∧
    SubtleInt.AddMod w x y n ≠ none := by
  have hnlt := val_lt n hvn
  obtain ⟨hzlen, hzval, hc1, hzeq⟩ := Add_eq hw x y 0 (by omega) hvx hvy (by omega)
  obtain ⟨htlen, htval, hc2, hteq⟩ := Sub_eq hw (SubtleInt.Add w x y 0).1 n 0
    (by omega) hzval hvn (by omega)
  rw [hzlen, hlx] at hteq
  rw [hlx] at hzeq
  constructor
  · rintro ⟨h1, h2⟩
    rw [h1] at hzeq
    rw [h2] at hteq
    simp only [Nat.one_mul, Nat.zero_mul, Nat.add_zero] at hzeq hteq
    omega
  · obtain ⟨r, hr, -, -, -⟩ := AddMod_eq hw x y n hlx hly hvx hvy hvn (by omega)
    rw [hr]
    simp

/-- C6 amended witness: concrete run at `x = 5`, `y = 4`, `n = 7`, word size 64. -/
theorem C6_assert_never_fires_witness :
    ((0 : ℕ) < 64 ∧ val 64 [5] < val 64 [7] ∧ val 64 [4] < val 64 [7]) ∧
    (¬ ((SubtleInt.Add 64 [5] [4] 0).2 = 1 ∧
        (SubtleInt.Sub 64 (SubtleInt.Add 64 [5] [4] 0).1 [7] 0).2 = 0) ∧
      SubtleInt.AddMod 64 [5] [4] [7] ≠ none) :=
  ⟨by decide, C6_assert_never_fires (by decide) [5] [4] [7] rfl rfl (by decide)
    (by decide) (by decide) (by decide) (by decide)⟩

/-- C8: for equal-length SubtleInt values, `a.Less(b)` returns 1 exactly when
the integer value of `a` is strictly below that of `b` and 0 otherwise, and in
particular `a.Less(a) = 0`. -/
theorem C8_less_correct {w : ℕ} (hw : 0 < w) (a b : List ℕ)
    (hlen : a.length = b.length) (hva : wordsValid w a) (hvb : wordsValid w b) :
    SubtleInt.Less w a b = (if val w a < val w b then 1 else 0) ∧
    SubtleInt.Less w a a = 0 := by
  refine ⟨Less_eq hw a b hlen hva hvb, ?_⟩
  rw [Less_eq hw a a rfl hva hva, if_neg (lt_irrefl _)]

/-- C8 witness: concrete two-word comparison at word size 64. -/
theorem C8_less_correct_witness :
    ((0 : ℕ) < 64 ∧ [1, 2].length = [3, 1].length) ∧
    (SubtleInt.Less 64 [1, 2] [3, 1] = (if val 64 [1, 2] < val 64 [3, 1] then 1 else 0) ∧
      SubtleInt.Less 64 [1, 2] [1, 2] = 0) :=
  ⟨by decide, C8_less_correct (by decide) [1, 2] [3, 1] (by decide)
    (by decide) (by decide)⟩

theorem valBE_natBytes (n : ℕ) : valBE 8 (natBytes n) = n := (natBytes_spec n).1

theorem mqv_core_symm (N h : ℕ) (dsA deA dsB deB : List ℕ) (exA exB : ℕ) :
    scalarMult
        (mqvBase ((valBE 8 dsB : ℕ) : ZMod N) ((valBE 8 deB : ℕ) : ZMod N) exB N)
        (mqvSig dsA deA exA N h)
      = scalarMult
        (mqvBase ((valBE 8 dsA : ℕ) : ZMod N) ((valBE 8 deA : ℕ) : ZMod N) exA N)
        (mqvSig dsB deB exB N h) := by
  simp only [scalarMult, mqvBase, mqvSig, pointAdd, valBE_natBytes]
  push_cast [ZMod.natCast_mod]
  ring

/-- C2: MQV symmetry.  Peer A holds static and ephemeral private scalars
`dsA, deA` (public points `valBE dsA · G`, `valBE deA · G` in the discrete-log
point model) and the ephemeral x-coordinate `exA`; peer B likewise.  `MQV`
evaluated from A's perspective (A's private scalars and ephemeral
x-coordinate, B's public points and B's ephemeral x-coordinate) returns
exactly the same result as `MQV` evaluated from B's perspective — the same
shared point on success, and the same error otherwise. -/
theorem C2_mqv_symmetry (c : Curve) (dsA deA dsB deB : List ℕ) (exA exB : ℕ) :
    MQV c dsA deA exA ((valBE 8 dsB : ℕ) : ZMod (curveOrder c))
        ((valBE 8 deB : ℕ) : ZMod (curveOrder c)) exB
      = MQV c dsB deB exB ((valBE 8 dsA : ℕ) : ZMod (curveOrder c))
        ((valBE 8 deA : ℕ) : ZMod (curveOrder c)) exA := by
  cases c with
  | other n => rfl
  | P224 =>
    simp only [MQV, cofactor]
    rw [mqv_core_symm (curveOrder .P224) 1 dsA deA dsB deB exA exB]
  | P256 =>
    simp only [MQV, cofactor]
    rw [mqv_core_symm (curveOrder .P256) 1 dsA deA dsB deB exA exB]
  | P384 =>
    simp only [MQV, cofactor]
    rw [mqv_core_symm (curveOrder .P384) 1 dsA deA dsB deB exA exB]
  | P521 =>
    simp only [MQV, cofactor]
    rw [mqv_core_symm (curveOrder .P521) 1 dsA deA dsB deB exA exB]

theorem generateKeyLoop_rest {w numBits numBytes : ℕ} {constN : List ℕ} :
    ∀ (fuel : ℕ) (rand out rest : List ℕ), wordsValid 8 rand →
    generateKeyLoop w numBits numBytes constN fuel rand = some (out, rest) →
    wordsValid 8 rest := by
  intro fuel
  induction fuel with
  | zero =>
    intro rand out rest _ h
    simp [generateKeyLoop] at h
  | succ fuel ih =>
    intro rand out rest hrand h
    simp only [generateKeyLoop] at h
    by_cases hshort : rand.length < numBytes
    · rw [if_pos hshort] at h
      simp at h
    · rw [if_neg hshort] at h
      by_cases hacc : SubtleInt.Less w
          (SubtleInt.SetBytes w (SubtleIntSize w numBits)
            (maskCandidate numBits (rand.take numBytes))) constN = 1
      · rw [if_pos hacc, Option.some_inj, Prod.mk.injEq] at h
        obtain ⟨h1, h2⟩ := h
        subst h2
        exact fun t ht => hrand t (List.mem_of_mem_drop ht)
      · rw [if_neg hacc] at h
        exact ih (rand.drop numBytes) out rest
          (fun t ht => hrand t (List.mem_of_mem_drop ht)) h

theorem GenerateKey_rest {w N fuel : ℕ} {rand out rest : List ℕ}
    (hrand : wordsValid 8 rand)
    (h : GenerateKey w N fuel rand = some (out, rest)) :
    wordsValid 8 rest := by
  unfold GenerateKey at h
  exact generateKeyLoop_rest fuel rand out rest hrand h

/-- C9: `MQV` returns the shared-secret-at-infinity error, and no point,
exactly when the computed point `Z = sig · B` is represented by the zero
x-coordinate (the point at infinity in the Go `(0, 0)` representation); and
`BlindMQV` performs no such check: whenever its two internal `BlindKey` calls
succeed it returns the combined point `P1 + P2` without raising this error,
even when that point is at infinity. -/
theorem C9_infinity_error {c : Curve} {sp ep : List ℕ} {ex : ℕ}
    {oS oE : ZMod (curveOrder c)} {oX h w fuel : ℕ}
    {rand p1 r1 p2 r2 rest1 rest2 : List ℕ}
    (hc : cofactor c = some h)
    (hb1 : BlindKey w sp (curveOrder c) fuel rand = some (p1, r1, rest1))
    (hb2 : BlindKey w ep (curveOrder c) fuel rest1 = some (p2, r2, rest2)) :
    (MQV c sp ep ex oS oE oX = .error .sharedSecretAtInfinity
      ↔ scalarMult (mqvBase oS oE oX (curveOrder c))
          (mqvSig sp ep ex (curveOrder c) h) = 0) ∧
    BlindMQV c sp ep ex oS oE oX w fuel rand
      = .ok (pointAdd
          (scalarMult (mqvBase oS oE oX (curveOrder c))
            (mqvSig p1 p2 ex (curveOrder c) h))
          (scalarMult (mqvBase oS oE oX (curveOrder c))
            (mqvSig r1 r2 ex (curveOrder c) h))) := by
  constructor
  · simp only [MQV, hc]
    by_cases hz : scalarMult (mqvBase oS oE oX (curveOrder c))
        (mqvSig sp ep ex (curveOrder c) h) = 0
    · simp [hz]
    · simp [hz]
  · simp only [BlindMQV, hc, hb1, hb2]

set_option maxRecDepth 1000000 in
/-- C9 witness: P-224 with concrete keys; both `BlindKey` calls succeed on the
all-zero test RNG and `BlindMQV` returns the combined point with no infinity
check. -/
theorem C9_infinity_error_witness :
    (cofactor .P224 = some 1 ∧
      BlindKey 64 (List.replicate 28 0) (curveOrder .P224) 1 (List.replicate 56 0)
        = some (0x00 :: 0x42 :: List.replicate 26 0, p224RevInv,
            List.replicate 28 0) ∧
      BlindKey 64 (List.replicate 28 0) (curveOrder .P224) 1 (List.replicate 28 0)
        = some (0x00 :: 0x42 :: List.replicate 26 0, p224RevInv, [])) ∧
    ((MQV .P224 (List.replicate 28 0) (List.replicate 28 0) 0 0 1 0
        = .error .sharedSecretAtInfinity
      ↔ scalarMult (mqvBase (0 : ZMod (curveOrder .P224)) 1 0 (curveOrder .P224))
          (mqvSig (List.replicate 28 0) (List.replicate 28 0) 0
            (curveOrder .P224) 1) = 0) ∧
      BlindMQV .P224 (List.replicate 28 0) (List.replicate 28 0) 0 0 1 0 64 1
          (List.replicate 56 0)
        = .ok (pointAdd
            (scalarMult (mqvBase (0 : ZMod (curveOrder .P224)) 1 0 (curveOrder .P224))
              (mqvSig (0x00 :: 0x42 :: List.replicate 26 0)
                (0x00 :: 0x42 :: List.replicate 26 0) 0 (curveOrder .P224) 1))
            (scalarMult (mqvBase (0 : ZMod (curveOrder .P224)) 1 0 (curveOrder .P224))
              (mqvSig p224RevInv p224RevInv 0 (curveOrder .P224) 1)))) :=
  ⟨⟨rfl, by decide, by decide⟩,
    @C9_infinity_error .P224 (List.replicate 28 0) (List.replicate 28 0) 0 0 1 0
      1 64 1 (List.replicate 56 0) (0x00 :: 0x42 :: List.replicate 26 0)
      p224RevInv (0x00 :: 0x42 :: List.replicate 26 0) p224RevInv
      (List.replicate 28 0) []
      rfl (by decide) (by decide)⟩

/-- C1: Blind ≡ Unblind.  For every supported curve, own private scalars
`sp, ep` encoded as full-length big-endian byte strings, own ephemeral
x-coordinate, peer public points and peer ephemeral x-coordinate, and every
random stream for which `MQV` succeeds and both internal `BlindKey` calls of
`BlindMQV` succeed, `BlindMQV` returns exactly the same point that `MQV`
returns: `s₁·B + s₂·B = (s₁+s₂)·B = sig·B`. -/
theorem C1_blind_refines_mqv {c : Curve} {sp ep : List ℕ} {ex : ℕ}
    {oS oE : ZMod (curveOrder c)} {oX w fuel : ℕ}
    {rand p1 r1 p2 r2 rest1 rest2 : List ℕ} {Z : ZMod (curveOrder c)}
    (hw : 0 < w) (h8 : 8 ∣ w)
    (hvs : wordsValid 8 sp) (hve : wordsValid 8 ep) (hvr : wordsValid 8 rand)
    (hls : sp.length = (bitLen (curveOrder c) + 7) / 8)
    (hle : ep.length = (bitLen (curveOrder c) + 7) / 8)
    (hb1 : BlindKey w sp (curveOrder c) fuel rand = some (p1, r1, rest1))
    (hb2 : BlindKey w ep (curveOrder c) fuel rest1 = some (p2, r2, rest2))
    (hM : MQV c sp ep ex oS oE oX = .ok Z) :
    BlindMQV c sp ep ex oS oE oX w fuel rand = .ok Z := by
  obtain ⟨bb1, hg1, _, _, _, _, _, hb1lt, hr1sum, hp1mod⟩ :=
    BlindKey_spec hw h8 hvs hvr hb1
  have hvrest1 : wordsValid 8 rest1 := GenerateKey_rest hvr hg1
  obtain ⟨bb2, hg2, _, _, _, _, _, hb2lt, hr2sum, hp2mod⟩ :=
    BlindKey_spec hw h8 hve hvrest1 hb2
  rw [hls, Nat.sub_self, Nat.mul_zero, Nat.pow_zero, Nat.mul_one] at hp1mod
  rw [hle, Nat.sub_self, Nat.mul_zero, Nat.pow_zero, Nat.mul_one] at hp2mod
  cases hcof : cofactor c with
  | none =>
    rw [MQV] at hM
    rw [hcof] at hM
    exact absurd hM (by simp)
  | some h =>
    simp only [MQV, hcof] at hM
    split at hM
    · exact absurd hM (by simp)
    next hz =>
    simp only [Except.ok.injEq] at hM
    simp only [BlindMQV, hcof, hb1, hb2, Except.ok.injEq]
    rw [← hM]
    have hc1 : ((valBE 8 p1 : ℕ) : ZMod (curveOrder c))
        = ((valBE 8 sp : ℕ) : ZMod (curveOrder c))
          + ((valBE 8 bb1 : ℕ) : ZMod (curveOrder c)) := by
      have := (ZMod.natCast_eq_natCast_iff' (valBE 8 p1)
        (valBE 8 sp + valBE 8 bb1) (curveOrder c)).mpr hp1mod
      push_cast at this
      exact this
    have hc2 : ((valBE 8 p2 : ℕ) : ZMod (curveOrder c))
        = ((valBE 8 ep : ℕ) : ZMod (curveOrder c))
          + ((valBE 8 bb2 : ℕ) : ZMod (curveOrder c)) := by
      have := (ZMod.natCast_eq_natCast_iff' (valBE 8 p2)
        (valBE 8 ep + valBE 8 bb2) (curveOrder c)).mpr hp2mod
      push_cast at this
      exact this
    have hcr1 : ((valBE 8 r1 : ℕ) : ZMod (curveOrder c))
        = -((valBE 8 bb1 : ℕ) : ZMod (curveOrder c)) := by
      have h0 : ((valBE 8 r1 + valBE 8 bb1 : ℕ) : ZMod (curveOrder c)) = 0 := by
        rw [hr1sum]
        exact ZMod.natCast_self _
      push_cast at h0
      exact eq_neg_of_add_eq_zero_left h0
    have hcr2 : ((valBE 8 r2 : ℕ) : ZMod (curveOrder c))
        = -((valBE 8 bb2 : ℕ) : ZMod (curveOrder c)) := by
      have h0 : ((valBE 8 r2 + valBE 8 bb2 : ℕ) : ZMod (curveOrder c)) = 0 := by
        rw [hr2sum]
        exact ZMod.natCast_self _
      push_cast at h0
      exact eq_neg_of_add_eq_zero_left h0
    simp only [pointAdd, scalarMult, mqvSig, valBE_natBytes]
    push_cast [ZMod.natCast_mod]
    rw [hc1, hc2, hcr1, hcr2]
    ring

set_option maxRecDepth 1000000 in
/-- C1 witness: P-224 with static scalar `1`, ephemeral scalar `0`, peer
points `(0, G)` and the all-zero test RNG; `MQV` returns `2^112 · G` and
`BlindMQV` returns the same point. -/
theorem C1_blind_refines_mqv_witness :
    ((0 : ℕ) < 64 ∧ (8 : ℕ) ∣ 64 ∧
      wordsValid 8 (List.replicate 27 0 ++ [1]) ∧
      wordsValid 8 (List.replicate 28 (0 : ℕ)) ∧
      wordsValid 8 (List.replicate 56 (0 : ℕ)) ∧
      (List.replicate 27 0 ++ [1]).length
        = (bitLen (curveOrder .P224) + 7) / 8 ∧
      (List.replicate 28 (0 : ℕ)).length = (bitLen (curveOrder .P224) + 7) / 8 ∧
      BlindKey 64 (List.replicate 27 0 ++ [1]) (curveOrder .P224) 1
          (List.replicate 56 0)
        = some (0x00 :: 0x42 :: (List.replicate 25 0 ++ [1]), p224RevInv,
            List.replicate 28 0) ∧
      BlindKey 64 (List.replicate 28 0) (curveOrder .P224) 1 (List.replicate 28 0)
        = some (0x00 :: 0x42 :: List.replicate 26 0, p224RevInv, []) ∧
      MQV .P224 (List.replicate 27 0 ++ [1]) (List.replicate 28 0) 0 0 1 0
        = .ok (((2 ^ 112 : ℕ) : ZMod (curveOrder .P224)))) ∧
    BlindMQV .P224 (List.replicate 27 0 ++ [1]) (List.replicate 28 0) 0 0 1 0
        64 1 (List.replicate 56 0)
      = .ok (((2 ^ 112 : ℕ) : ZMod (curveOrder .P224))) :=
  ⟨⟨by decide, by decide, by decide, by decide, by decide, by decide,
      by decide, by decide, by decide, by rfl⟩,
    @C1_blind_refines_mqv .P224 (List.replicate 27 0 ++ [1])
      (List.replicate 28 0) 0 0 1 0 64 1 (List.replicate 56 0)
      (0x00 :: 0x42 :: (List.replicate 25 0 ++ [1])) p224RevInv
      (0x00 :: 0x42 :: List.replicate 26 0) p224RevInv
      (List.replicate 28 0) [] ((2 ^ 112 : ℕ) : ZMod (curveOrder .P224))
      (by decide) (by decide) (by decide) (by decide) (by decide) (by decide)
      (by decide) (by decide) (by decide) (by rfl)⟩

/-! Frame effects (C10).  A heap of mutable buffers: Go byte slices and the
word arrays backing `big.Int`s are heap cells (`List ℕ`), a reference is a
cell index, `make`/`new` is `halloc`, and every in-place update — including
the `WipeBytes`/`WipeInt`/`SetZero` zeroizations — is an explicit `hwrite`.
The `St`-prefixed functions replay the allocations, writes and wipes of the
Go code; `preserves st st'` says every cell that existed in `st` is unchanged
in `st'`. -/

/-- A heap: cell `j` holds the byte/word array of one Go buffer. -/
abbrev Heap := List (List ℕ)

/-- Allocation: appends a fresh cell, returning the heap and the reference. -/
def halloc (h : Heap) (v : List ℕ) : Heap × ℕ := (h ++ [v], h.length)

/-- Reading a cell (out-of-range reads give the empty buffer). -/
def hread (h : Heap) (r : ℕ) : List ℕ := h.getD r []

/-- In-place update of a cell. -/
def hwrite (h : Heap) (r : ℕ) (v : List ℕ) : Heap := h.set r v

/-- All cells of `h` still exist in `h'` and hold the same contents. -/
def preserves (h h' : Heap) : Prop :=
  h.length ≤ h'.length ∧ ∀ j, j < h.length → hread h' j = hread h j

theorem preserves_refl (h : Heap) : preserves h h :=
  ⟨Nat.le_refl _, fun _ _ => rfl⟩

theorem preserves_trans {h1 h2 h3 : Heap} (a : preserves h1 h2)
    (b : preserves h2 h3) : preserves h1 h3 :=
  ⟨Nat.le_trans a.1 b.1,
    fun j hj => (b.2 j (Nat.lt_of_lt_of_le hj a.1)).trans (a.2 j hj)⟩

theorem preserves_halloc {h0 h : Heap} (hp : preserves h0 h) (v : List ℕ) :
    preserves h0 (halloc h v).1 ∧ h0.length ≤ (halloc h v).2 := by
  refine ⟨preserves_trans hp ⟨by simp [halloc], fun j hj => ?_⟩, hp.1⟩
  unfold halloc hread
  exact List.getD_append _ _ _ _ hj

theorem preserves_hwrite {h0 h : Heap} (hp : preserves h0 h) {r : ℕ}
    (hr : h0.length ≤ r) (v : List ℕ) : preserves h0 (hwrite h r v) := by
  refine ⟨by simpa [hwrite] using hp.1, fun j hj => ?_⟩
  have hne : r ≠ j := by omega
  have : hread (hwrite h r v) j = hread h j := by
    unfold hwrite hread
    simp [List.getD_eq_getElem?_getD, List.getElem?_set_ne hne]
  rw [this]
  exact hp.2 j hj

/-- Models the heap behaviour of Go `avf` on the x-coordinate cell `xRef`:
`b` and `v` are freshly allocated `big.Int`s, `v` is updated in place by
`Sub`/`And`/`Add`, and `b` is wiped before `v` is returned. -/
def StAvf (st : Heap) (xRef : ℕ) (N : ℕ) : Heap × ℕ :=
  let x := (hread st xRef).headD 0
  let b := 1 <<< ((bitLen N + 1) / 2)
  let ab := halloc st [b]
  let av := halloc ab.1 [b - 1]
  let st1 := hwrite av.1 av.2 [(b - 1) &&& x]
  let st2 := hwrite st1 av.2 [((b - 1) &&& x) + b]
  (hwrite st2 ab.2 [0], av.2)

theorem StAvf_frame (st : Heap) (xRef N : ℕ) :
    preserves st (StAvf st xRef N).1 ∧ st.length ≤ (StAvf st xRef N).2 := by
  simp only [StAvf]
  obtain ⟨p1, r1⟩ := preserves_halloc (preserves_refl st) [1 <<< ((bitLen N + 1) / 2)]
  obtain ⟨p2, r2⟩ := preserves_halloc p1 [1 <<< ((bitLen N + 1) / 2) - 1]
  exact ⟨preserves_hwrite (preserves_hwrite (preserves_hwrite p2 r2 _) r2 _) r1 _, r2⟩

/-- Models the heap behaviour of Go `mqvSig`: the two private-key byte cells
are only read; `ownStaticPrivInt`, `ownEphemeralPrivInt` and the `avf` result
`implSig` are fresh cells, `implSig` is updated in place by
`Mul`/`Add`/`Mod`/`Mul`, the output byte string is fresh, and the three
internal `big.Int`s are wiped before returning. -/
def StMqvSig (st : Heap)
    (ownStaticPrivRef ownEphemeralPrivRef ownEphemeralXRef : ℕ) (N h : ℕ) :
    Heap × ℕ :=
  let s := valBE 8 (hread st ownStaticPrivRef)
  let e := valBE 8 (hread st ownEphemeralPrivRef)
  let a1 := halloc st [s]
  let a2 := halloc a1.1 [e]
  let av := StAvf a2.1 ownEphemeralXRef N
  let v0 := (hread av.1 av.2).headD 0
  let st1 := hwrite av.1 av.2 [v0 * s]
  let st2 := hwrite st1 av.2 [v0 * s + e]
  let st3 := hwrite st2 av.2 [(v0 * s + e) % N]
  let st4 := hwrite st3 av.2 [(v0 * s + e) % N * h]
  let out := halloc st4 (natBytes ((v0 * s + e) % N * h))
  let st5 := hwrite out.1 av.2 [0]
  let st6 := hwrite st5 a2.2 [0]
  let st7 := hwrite st6 a1.2 [0]
  (st7, out.2)

theorem StMqvSig_frame (st : Heap) (r1 r2 r3 N h : ℕ) :
    preserves st (StMqvSig st r1 r2 r3 N h).1 ∧
    st.length ≤ (StMqvSig st r1 r2 r3 N h).2 := by
  simp only [StMqvSig]
  have p1 := preserves_halloc (preserves_refl st) [valBE 8 (hread st r1)]
  have p2 := preserves_halloc p1.1 [valBE 8 (hread st r2)]
  have pA := StAvf_frame (halloc (halloc st [valBE 8 (hread st r1)]).1
    [valBE 8 (hread st r2)]).1 r3 N
  have pA1 := preserves_trans p2.1 pA.1
  have hrA : st.length ≤ (StAvf (halloc (halloc st [valBE 8 (hread st r1)]).1
      [valBE 8 (hread st r2)]).1 r3 N).2 :=
    Nat.le_trans p2.1.1 pA.2
  refine ⟨preserves_hwrite (preserves_hwrite (preserves_hwrite
      (preserves_halloc (preserves_hwrite (preserves_hwrite (preserves_hwrite
        (preserves_hwrite pA1 hrA _) hrA _) hrA _) hrA _) _).1
      hrA _) p2.2 _) p1.2 _,
    (preserves_halloc (preserves_hwrite (preserves_hwrite (preserves_hwrite
      (preserves_hwrite pA1 hrA _) hrA _) hrA _) hrA _) _).2⟩

/-- The curve group operations, taken as pure functions on coordinates (the
Go implementations allocate and return fresh `big.Int`s). -/
structure CurveOps where
  scalarMult : ℕ → ℕ → List ℕ → ℕ × ℕ
  add : ℕ → ℕ → ℕ → ℕ → ℕ × ℕ

/-- Models the heap behaviour of Go `mqvBase`: the four peer coordinate cells
are only read; `avfOther`, its byte string, and the four result coordinates
are fresh cells, and `avfOther`, `avfOtherBytes`, `ax`, `ay` are wiped before
returning the references of `bx`, `by`. -/
def StMqvBase (ops : CurveOps) (st : Heap)
    (oSXRef oSYRef oEXRef oEYRef : ℕ) (N : ℕ) : Heap × ℕ × ℕ :=
  let av := StAvf st oEXRef N
  let avfOther := (hread av.1 av.2).headD 0
  let ab := halloc av.1 (natBytes avfOther)
  let axy := ops.scalarMult ((hread ab.1 oSXRef).headD 0)
    ((hread ab.1 oSYRef).headD 0) (hread ab.1 ab.2)
  let aax := halloc ab.1 [axy.1]
  let aay := halloc aax.1 [axy.2]
  let bxy := ops.add ((hread aay.1 oEXRef).headD 0)
    ((hread aay.1 oEYRef).headD 0) axy.1 axy.2
  let abx := halloc aay.1 [bxy.1]
  let aby := halloc abx.1 [bxy.2]
  let st1 := hwrite aby.1 av.2 [0]
  let st2 := hwrite st1 ab.2 (List.replicate (hread st1 ab.2).length 0)
  let st3 := hwrite st2 aax.2 [0]
  let st4 := hwrite st3 aay.2 [0]
  (st4, abx.2, aby.2)

theorem StMqvBase_frame (ops : CurveOps) (st : Heap) (r1 r2 r3 r4 N : ℕ) :
    preserves st (StMqvBase ops st r1 r2 r3 r4 N).1 ∧
    st.length ≤ (StMqvBase ops st r1 r2 r3 r4 N).2.1 ∧
    st.length ≤ (StMqvBase ops st r1 r2 r3 r4 N).2.2 := by
  simp only [StMqvBase]
  have pA := StAvf_frame st r3 N
  refine ⟨preserves_hwrite (preserves_hwrite (preserves_hwrite (preserves_hwrite
      (preserves_halloc (preserves_halloc (preserves_halloc (preserves_halloc
        (preserves_halloc pA.1 _).1 _).1 _).1 _).1 _).1
      pA.2 _)
      (preserves_halloc pA.1 _).2 _)
      (preserves_halloc (preserves_halloc pA.1 _).1 _).2 _)
      (preserves_halloc (preserves_halloc (preserves_halloc pA.1 _).1 _).1 _).2 _,
    (preserves_halloc (preserves_halloc (preserves_halloc (preserves_halloc
      pA.1 _).1 _).1 _).1 _).2,
    (preserves_halloc (preserves_halloc (preserves_halloc (preserves_halloc
      (preserves_halloc pA.1 _).1 _).1 _).1 _).1 _).2⟩

/-- Models the heap behaviour of the Go `GenerateKey` loop: each iteration
overwrites the `priv` cell with the freshly read-and-masked candidate and the
`tmp` cell with its word array; on return (accept or read error) the deferred
`tmp.SetZero()` wipes `tmp`, and on success the `priv` cell reference is
returned. -/
def stGenLoop (w numBits numBytes : ℕ) (constN : List ℕ) (privRef tmpRef : ℕ) :
    ℕ → Heap → List ℕ → Heap × Option (ℕ × List ℕ)
  | 0, st, _ => (st, none)
  | fuel + 1, st, rand =>
    if rand.length < numBytes then
      (hwrite st tmpRef (List.replicate (hread st tmpRef).length 0), none)
    else
      let priv := maskCandidate numBits (rand.take numBytes)
      let st1 := hwrite st privRef priv
      let tmp := SubtleInt.SetBytes w (SubtleIntSize w numBits) priv
      let st2 := hwrite st1 tmpRef tmp
      if SubtleInt.Less w tmp constN = 1 then
        (hwrite st2 tmpRef (List.replicate tmp.length 0),
          some (privRef, rand.drop numBytes))
      else
        stGenLoop w numBits numBytes constN privRef tmpRef fuel st2
          (rand.drop numBytes)

/-- Heap version of `GenerateKey`: `constN`, `priv` and `tmp` are fresh cells
and the loop only ever writes to `priv` and `tmp`. -/
def StGenerateKey (w N fuel : ℕ) (st : Heap) (rand : List ℕ) :
    Heap × Option (ℕ × List ℕ) :=
  let numBits := bitLen N
  let numBytes := (numBits + 7) >>> 3
  let constN := SubtleInt.SetBytes w (SubtleIntSize w numBits) (natBytes N)
  let a1 := halloc st constN
  let a2 := halloc a1.1 (List.replicate numBytes 0)
  let a3 := halloc a2.1 (List.replicate (SubtleIntSize w numBits) 0)
  stGenLoop w numBits numBytes constN a2.2 a3.2 fuel a3.1 rand

theorem stGenLoop_frame {w numBits numBytes : ℕ} {constN : List ℕ}
    {privRef tmpRef : ℕ} {h0 : Heap} :
    ∀ (fuel : ℕ) (st : Heap) (rand : List ℕ), preserves h0 st →
    h0.length ≤ privRef → h0.length ≤ tmpRef →
    preserves h0
      (stGenLoop w numBits numBytes constN privRef tmpRef fuel st rand).1 ∧
    ∀ r rest,
      (stGenLoop w numBits numBytes constN privRef tmpRef fuel st rand).2
        = some (r, rest) → r = privRef := by
  intro fuel
  induction fuel with
  | zero =>
    intro st rand hp _ _
    refine ⟨by simpa [stGenLoop] using hp, ?_⟩
    intro r rest h
    exact Option.noConfusion h
  | succ fuel ih =>
    intro st rand hp hpr htr
    simp only [stGenLoop]
    split
    · refine ⟨preserves_hwrite hp htr _, ?_⟩
      intro r rest h
      exact Option.noConfusion h
    · split
      · refine ⟨preserves_hwrite (preserves_hwrite (preserves_hwrite hp hpr _)
          htr _) htr _, ?_⟩
        intro r rest h
        simp only [Option.some.injEq, Prod.mk.injEq] at h
        exact h.1.symm
      · exact ih _ _ (preserves_hwrite (preserves_hwrite hp hpr _) htr _)
          hpr htr

theorem StGenerateKey_frame (w N fuel : ℕ) (st : Heap) (rand : List ℕ) :
    preserves st (StGenerateKey w N fuel st rand).1 ∧
    ∀ r rest, (StGenerateKey w N fuel st rand).2 = some (r, rest) →
      st.length ≤ r := by
  simp only [StGenerateKey]
  have p1 := preserves_halloc (preserves_refl st)
    (SubtleInt.SetBytes w (SubtleIntSize w (bitLen N)) (natBytes N))
  have p2 := preserves_halloc p1.1 (List.replicate ((bitLen N + 7) >>> 3) 0)
  have p3 := preserves_halloc p2.1 (List.replicate (SubtleIntSize w (bitLen N)) 0)
  refine ⟨(stGenLoop_frame fuel _ rand p3.1 p1.1.1 p2.1.1).1, ?_⟩
  intro r rest h
  rw [(stGenLoop_frame fuel _ rand p3.1 p1.1.1 p2.1.1).2 r rest h]
  exact p1.1.1

/-- Heap version of `BlindKey`: the caller's `priv` cell is only read; `n`,
`privConst`, `blind` and `privNew` are fresh cells, `privNew` and `blind` are
updated in place by `AddMod` and `Sub`, the two output byte strings are fresh
cells, and the deferred wipes zero `blindBytes`, `blind` and `privNew` (on
the `AddMod` panic path as well). -/
def StBlindKey (w : ℕ) (st : Heap) (privRef : ℕ) (N fuel : ℕ)
    (rand : List ℕ) : Heap × Option (ℕ × ℕ × List ℕ) :=
  let priv := hread st privRef
  let numBytes := (bitLen N + 7) >>> 3
  let k := SubtleIntSize w (8 * numBytes)
  let a1 := halloc st (SubtleInt.SetBytes w k (natBytes N))
  if numBytes < priv.length then (a1.1, none)
  else
    let a2 := halloc a1.1 (SubtleInt.SetBytes w k priv)
    match StGenerateKey w N fuel a2.1 rand with
    | (st3, none) => (st3, none)
    | (st3, some (blindBytesRef, rest)) =>
      let blindBytes := hread st3 blindBytesRef
      let a4 := halloc st3 (SubtleInt.SetBytes w k blindBytes)
      let a5 := halloc a4.1 (SubtleInt.SetBytes w k (hread a4.1 privRef))
      match SubtleInt.AddMod w (hread a5.1 a5.2) (hread a5.1 a4.2)
          (hread a5.1 a1.2) with
      | none =>
        let sw1 := hwrite a5.1 a5.2 (List.replicate (hread a5.1 a5.2).length 0)
        let sw2 := hwrite sw1 a4.2 (List.replicate (hread sw1 a4.2).length 0)
        (hwrite sw2 blindBytesRef (List.replicate blindBytes.length 0), none)
      | some privNew2 =>
        let st6 := hwrite a5.1 a5.2 privNew2
        let blind2 := (SubtleInt.Sub w (hread st6 a1.2) (hread st6 a4.2) 0).1
        let st7 := hwrite st6 a4.2 blind2
        let a8 := halloc st7 ((SubtleInt.Bytes w (hread st7 a5.2)).take numBytes)
        let a9 := halloc a8.1 ((SubtleInt.Bytes w (hread a8.1 a4.2)).take numBytes)
        let sw1 := hwrite a9.1 a5.2 (List.replicate privNew2.length 0)
        let sw2 := hwrite sw1 a4.2 (List.replicate blind2.length 0)
        let sw3 := hwrite sw2 blindBytesRef (List.replicate blindBytes.length 0)
        (sw3, some (a8.2, a9.2, rest))

theorem StBlindKey_frame (w : ℕ) (st : Heap) (privRef N fuel : ℕ)
    (rand : List ℕ) :
    preserves st (StBlindKey w st privRef N fuel rand).1 ∧
    ∀ pr rr rest, (StBlindKey w st privRef N fuel rand).2 = some (pr, rr, rest) →
      st.length ≤ pr ∧ st.length ≤ rr := by
  simp only [StBlindKey]
  have p1 := preserves_halloc (preserves_refl st)
    (SubtleInt.SetBytes w (SubtleIntSize w (8 * ((bitLen N + 7) >>> 3)))
      (natBytes N))
  split
  · refine ⟨p1.1, ?_⟩
    intro pr rr rest h
    exact Option.noConfusion h
  · have p2 := preserves_halloc p1.1
      (SubtleInt.SetBytes w (SubtleIntSize w (8 * ((bitLen N + 7) >>> 3)))
        (hread st privRef))
    split
    next st3 hg =>
      have pG := StGenerateKey_frame w N fuel
        ((halloc (halloc st
        (SubtleInt.SetBytes w (SubtleIntSize w (8 * ((bitLen N + 7) >>> 3)))
          (natBytes N))).1
        (SubtleInt.SetBytes w (SubtleIntSize w (8 * ((bitLen N + 7) >>> 3)))
          (hread st privRef))).1) rand
      rw [hg] at pG
      refine ⟨preserves_trans p2.1 pG.1, ?_⟩
      intro pr rr rest h
      exact Option.noConfusion h
    next st3 blindBytesRef rest hg =>
      have pG := StGenerateKey_frame w N fuel
        ((halloc (halloc st
        (SubtleInt.SetBytes w (SubtleIntSize w (8 * ((bitLen N + 7) >>> 3)))
          (natBytes N))).1
        (SubtleInt.SetBytes w (SubtleIntSize w (8 * ((bitLen N + 7) >>> 3)))
          (hread st privRef))).1) rand
      rw [hg] at pG
      have p3 : preserves st st3 := preserves_trans p2.1 pG.1
      have hrB : st.length ≤ blindBytesRef :=
        Nat.le_trans p2.1.1 (pG.2 blindBytesRef rest rfl)
      have p4 := preserves_halloc p3
        (SubtleInt.SetBytes w (SubtleIntSize w (8 * ((bitLen N + 7) >>> 3)))
          (hread st3 blindBytesRef))
      have p5 := preserves_halloc p4.1
        (SubtleInt.SetBytes w (SubtleIntSize w (8 * ((bitLen N + 7) >>> 3)))
          (hread (halloc st3 (SubtleInt.SetBytes w
              (SubtleIntSize w (8 * ((bitLen N + 7) >>> 3)))
              (hread st3 blindBytesRef))).1 privRef))
      split
      · exact ⟨preserves_hwrite (preserves_hwrite (preserves_hwrite p5.1
          p5.2 _) p4.2 _) hrB _,
          fun pr rr rest2 h => Option.noConfusion h⟩
      next privNew2 ha =>
        have hr5 : st.length ≤ (halloc (halloc st3
            (SubtleInt.SetBytes w (SubtleIntSize w (8 * ((bitLen N + 7) >>> 3)))
              (hread st3 blindBytesRef))).1
            (SubtleInt.SetBytes w (SubtleIntSize w (8 * ((bitLen N + 7) >>> 3)))
          (hread (halloc st3 (SubtleInt.SetBytes w
              (SubtleIntSize w (8 * ((bitLen N + 7) >>> 3)))
              (hread st3 blindBytesRef))).1 privRef))).2 := p5.2
        refine ⟨?_, ?_⟩
        · exact preserves_hwrite (preserves_hwrite (preserves_hwrite
            (preserves_halloc (preserves_halloc (preserves_hwrite
              (preserves_hwrite p5.1 hr5 _) p4.2 _) _).1 _).1
            hr5 _) p4.2 _) hrB _
        · intro pr rr rest2 h
          simp only [Option.some.injEq, Prod.mk.injEq] at h
          refine ⟨?_, ?_⟩
          · rw [← h.1]
            exact (preserves_halloc (preserves_hwrite (preserves_hwrite p5.1
              hr5 _) p4.2 _) _).2
          · rw [← h.2.1]
            exact (preserves_halloc (preserves_halloc (preserves_hwrite
              (preserves_hwrite p5.1 hr5 _) p4.2 _) _).1 _).2

/-- Heap version of `MQV`: the private-key byte cells and the five coordinate
cells are only read; `s`, `bx`, `by` are wiped before returning, the result
coordinates are fresh cells, and the infinity check inspects the computed
x-coordinate. -/
def StMQV (c : Curve) (ops : CurveOps) (st : Heap)
    (ownStaticPrivRef ownEphemeralPrivRef ownEphemeralXRef
      oSXRef oSYRef oEXRef oEYRef : ℕ) : Heap × Option (ℕ × ℕ) :=
  match cofactor c with
  | none => (st, none)
  | some h =>
    let s := StMqvSig st ownStaticPrivRef ownEphemeralPrivRef ownEphemeralXRef
      (curveOrder c) h
    let b := StMqvBase ops s.1 oSXRef oSYRef oEXRef oEYRef (curveOrder c)
    let xy := ops.scalarMult ((hread b.1 b.2.1).headD 0)
      ((hread b.1 b.2.2).headD 0) (hread b.1 s.2)
    let ax := halloc b.1 [xy.1]
    let ay := halloc ax.1 [xy.2]
    let sw1 := hwrite ay.1 s.2 (List.replicate (hread ay.1 s.2).length 0)
    let sw2 := hwrite sw1 b.2.1 [0]
    let sw3 := hwrite sw2 b.2.2 [0]
    if xy.1 = 0 then (sw3, none) else (sw3, some (ax.2, ay.2))

theorem StMQV_frame (c : Curve) (ops : CurveOps) (st : Heap)
    (r1 r2 r3 r4 r5 r6 r7 : ℕ) :
    preserves st (StMQV c ops st r1 r2 r3 r4 r5 r6 r7).1 := by
  simp only [StMQV]
  split
  · exact preserves_refl st
  next h hc =>
    obtain ⟨pS, hrS0⟩ := StMqvSig_frame st r1 r2 r3 (curveOrder c) h
    generalize hS : StMqvSig st r1 r2 r3 (curveOrder c) h = S at pS hrS0 ⊢
    obtain ⟨pB, hrBX0, hrBY0⟩ := StMqvBase_frame ops S.1 r4 r5 r6 r7 (curveOrder c)
    generalize hB : StMqvBase ops S.1 r4 r5 r6 r7 (curveOrder c) = B
      at pB hrBX0 hrBY0 ⊢
    generalize hxy : ops.scalarMult ((hread B.1 B.2.1).headD 0)
      ((hread B.1 B.2.2).headD 0) (hread B.1 S.2) = xy
    have pSB := preserves_trans pS pB
    have hrBX : st.length ≤ B.2.1 := Nat.le_trans pS.1 hrBX0
    have hrBY : st.length ≤ B.2.2 := Nat.le_trans pS.1 hrBY0
    have pA1 := preserves_halloc pSB [xy.1]
    have pA2 := preserves_halloc pA1.1 [xy.2]
    split
    · exact preserves_hwrite (preserves_hwrite (preserves_hwrite pA2.1
        hrS0 _) hrBX _) hrBY _
    · exact preserves_hwrite (preserves_hwrite (preserves_hwrite pA2.1
        hrS0 _) hrBX _) hrBY _

/-- Heap version of `BlindMQV`: the private-key byte cells and the five
coordinate cells are only read; the blinded key halves, the signatures, the
base point and the intermediate points are wiped before returning, and the
result coordinates are fresh cells. -/
def StBlindMQV (c : Curve) (ops : CurveOps) (w fuel : ℕ) (st : Heap)
    (ownStaticPrivRef ownEphemeralPrivRef ownEphemeralXRef
      oSXRef oSYRef oEXRef oEYRef : ℕ) (rand : List ℕ) :
    Heap × Option (ℕ × ℕ) :=
  match cofactor c with
  | none => (st, none)
  | some h =>
    match StBlindKey w st ownStaticPrivRef (curveOrder c) fuel rand with
    | (st1, none) => (st1, none)
    | (st1, some (sNewRef, sRevRef, rand2)) =>
      match StBlindKey w st1 ownEphemeralPrivRef (curveOrder c) fuel rand2 with
      | (st2, none) =>
        let sw1 := hwrite st2 sNewRef (List.replicate (hread st2 sNewRef).length 0)
        let sw2 := hwrite sw1 sRevRef (List.replicate (hread sw1 sRevRef).length 0)
        (sw2, none)
      | (st2, some (eNewRef, eRevRef, _)) =>
        let b := StMqvBase ops st2 oSXRef oSYRef oEXRef oEYRef (curveOrder c)
        let s1 := StMqvSig b.1 sNewRef eNewRef ownEphemeralXRef (curveOrder c) h
        let xy1 := ops.scalarMult ((hread s1.1 b.2.1).headD 0)
          ((hread s1.1 b.2.2).headD 0) (hread s1.1 s1.2)
        let ax1 := halloc s1.1 [xy1.1]
        let ay1 := halloc ax1.1 [xy1.2]
        let s2 := StMqvSig ay1.1 sRevRef eRevRef ownEphemeralXRef (curveOrder c) h
        let xy2 := ops.scalarMult ((hread s2.1 b.2.1).headD 0)
          ((hread s2.1 b.2.2).headD 0) (hread s2.1 s2.2)
        let ax2 := halloc s2.1 [xy2.1]
        let ay2 := halloc ax2.1 [xy2.2]
        let xy := ops.add xy1.1 xy1.2 xy2.1 xy2.2
        let ax := halloc ay2.1 [xy.1]
        let ay := halloc ax.1 [xy.2]
        let sw1 := hwrite ay.1 s1.2 (List.replicate (hread ay.1 s1.2).length 0)
        let sw2 := hwrite sw1 s2.2 (List.replicate (hread sw1 s2.2).length 0)
        let sw3 := hwrite sw2 ax1.2 [0]
        let sw4 := hwrite sw3 ay1.2 [0]
        let sw5 := hwrite sw4 ax2.2 [0]
        let sw6 := hwrite sw5 ay2.2 [0]
        let sw7 := hwrite sw6 b.2.1 [0]
        let sw8 := hwrite sw7 b.2.2 [0]
        let sw9 := hwrite sw8 sNewRef (List.replicate (hread sw8 sNewRef).length 0)
        let sw10 := hwrite sw9 sRevRef (List.replicate (hread sw9 sRevRef).length 0)
        let sw11 := hwrite sw10 eNewRef (List.replicate (hread sw10 eNewRef).length 0)
        let sw12 := hwrite sw11 eRevRef (List.replicate (hread sw11 eRevRef).length 0)
        (sw12, some (ax.2, ay.2))

theorem StBlindMQV_frame (c : Curve) (ops : CurveOps) (w fuel : ℕ) (st : Heap)
    (r1 r2 r3 r4 r5 r6 r7 : ℕ) (rand : List ℕ) :
    preserves st (StBlindMQV c ops w fuel st r1 r2 r3 r4 r5 r6 r7 rand).1 := by
  simp only [StBlindMQV]
  split
  · exact preserves_refl st
  next h hc =>
    have pK1 := StBlindKey_frame w st r1 (curveOrder c) fuel rand
    split
    next st1 hk1 =>
      rw [hk1] at pK1
      exact pK1.1
    next st1 sNewRef sRevRef rand2 hk1 =>
      rw [hk1] at pK1
      have hrN : st.length ≤ sNewRef := (pK1.2 sNewRef sRevRef rand2 rfl).1
      have hrR : st.length ≤ sRevRef := (pK1.2 sNewRef sRevRef rand2 rfl).2
      have pK2 := StBlindKey_frame w st1 r2 (curveOrder c) fuel rand2
      split
      next st2 hk2 =>
        rw [hk2] at pK2
        have p2 : preserves st st2 := preserves_trans pK1.1 pK2.1
        exact preserves_hwrite (preserves_hwrite p2 hrN _) hrR _
      next st2 eNewRef eRevRef rest hk2 =>
        rw [hk2] at pK2
        have p2 : preserves st st2 := preserves_trans pK1.1 pK2.1
        have hrEN : st.length ≤ eNewRef :=
          Nat.le_trans pK1.1.1 (pK2.2 eNewRef eRevRef rest rfl).1
        have hrER : st.length ≤ eRevRef :=
          Nat.le_trans pK1.1.1 (pK2.2 eNewRef eRevRef rest rfl).2
        obtain ⟨pB, hrBX0, hrBY0⟩ :=
          StMqvBase_frame ops st2 r4 r5 r6 r7 (curveOrder c)
        generalize hB : StMqvBase ops st2 r4 r5 r6 r7 (curveOrder c) = B
          at pB hrBX0 hrBY0 ⊢
        obtain ⟨pS1, hrS10⟩ :=
          StMqvSig_frame B.1 sNewRef eNewRef r3 (curveOrder c) h
        generalize hS1 : StMqvSig B.1 sNewRef eNewRef r3 (curveOrder c) h = S1
          at pS1 hrS10 ⊢
        generalize hxy1 : ops.scalarMult ((hread S1.1 B.2.1).headD 0)
          ((hread S1.1 B.2.2).headD 0) (hread S1.1 S1.2) = xy1
        obtain ⟨pS2, hrS20⟩ := StMqvSig_frame
          (halloc (halloc S1.1 [xy1.1]).1 [xy1.2]).1 sRevRef eRevRef r3
          (curveOrder c) h
        generalize hS2 : StMqvSig (halloc (halloc S1.1 [xy1.1]).1 [xy1.2]).1
          sRevRef eRevRef r3 (curveOrder c) h = S2 at pS2 hrS20 ⊢
        generalize hxy2 : ops.scalarMult ((hread S2.1 B.2.1).headD 0)
          ((hread S2.1 B.2.2).headD 0) (hread S2.1 S2.2) = xy2
        generalize hxy : ops.add xy1.1 xy1.2 xy2.1 xy2.2 = xy
        have p3 := preserves_trans p2 pB
        have pstS1 : preserves st S1.1 := preserves_trans p3 pS1
        have hS1r : st.length ≤ S1.2 := Nat.le_trans p3.1 hrS10
        have pA1 := preserves_halloc pstS1 [xy1.1]
        have pA2 := preserves_halloc pA1.1 [xy1.2]
        have pstS2 : preserves st S2.1 := preserves_trans pA2.1 pS2
        have hS2r : st.length ≤ S2.2 := Nat.le_trans pA2.1.1 hrS20
        have pA3 := preserves_halloc pstS2 [xy2.1]
        have pA4 := preserves_halloc pA3.1 [xy2.2]
        have pA5 := preserves_halloc pA4.1 [xy.1]
        have pA6 := preserves_halloc pA5.1 [xy.2]
        have hBX : st.length ≤ B.2.1 := Nat.le_trans p2.1 hrBX0
        have hBY : st.length ≤ B.2.2 := Nat.le_trans p2.1 hrBY0
        exact preserves_hwrite (preserves_hwrite (preserves_hwrite
          (preserves_hwrite (preserves_hwrite (preserves_hwrite
          (preserves_hwrite (preserves_hwrite (preserves_hwrite
          (preserves_hwrite (preserves_hwrite (preserves_hwrite
          pA6.1 hS1r _) hS2r _) pA1.2 _) pA2.2 _) pA3.2 _) pA4.2 _)
          hBX _) hBY _) hrN _) hrR _) hrEN _) hrER _

/-- A concrete instance of the curve group operations, for exercising the
heap model on closed inputs. -/
def demoOps : CurveOps :=
  ⟨fun x y s => (x + y + s.length, x * y), fun a b c d => (a + c, b + d)⟩

/-- C10: frame effect.  Every call to `MQV`, `BlindMQV` and `BlindKey` leaves
all caller-supplied heap cells unchanged: for every cell `j` that existed
before the call — in particular the private-key byte slices and the peer
coordinate big integers, whatever cells they live in — the heap after the
call holds the same contents at `j`, on success and on error alike; the
zeroization these functions perform touches only internally allocated
cells. -/
theorem C10_frame (c : Curve) (ops : CurveOps) (w N fuel : ℕ) (st : Heap)
    (r1 r2 r3 r4 r5 r6 r7 : ℕ) (rand : List ℕ) :
    (∀ j, j < st.length →
      hread (StMQV c ops st r1 r2 r3 r4 r5 r6 r7).1 j = hread st j) ∧
    (∀ j, j < st.length →
      hread (StBlindMQV c ops w fuel st r1 r2 r3 r4 r5 r6 r7 rand).1 j
        = hread st j) ∧
    (∀ j, j < st.length →
      hread (StBlindKey w st r1 N fuel rand).1 j = hread st j) :=
  ⟨(StMQV_frame c ops st r1 r2 r3 r4 r5 r6 r7).2,
   (StBlindMQV_frame c ops w fuel st r1 r2 r3 r4 r5 r6 r7 rand).2,
   (StBlindKey_frame w st r1 N fuel rand).1.2⟩

set_option maxRecDepth 1000000 in
/-- C10 witness: a one-cell heap holding the byte string `[1, 2, 3]`, used as
every argument reference; after full runs of the three functions on P-224 the
cell is unchanged. -/
theorem C10_frame_witness :
    ((0 : ℕ) < ([[1, 2, 3]] : Heap).length) ∧
    (hread (StMQV .P224 demoOps [[1, 2, 3]] 0 0 0 0 0 0 0).1 0
        = hread [[1, 2, 3]] 0 ∧
      hread (StBlindMQV .P224 demoOps 64 1 [[1, 2, 3]] 0 0 0 0 0 0 0
          (List.replicate 56 0)).1 0 = hread [[1, 2, 3]] 0 ∧
      hread (StBlindKey 64 [[1, 2, 3]] 0 p224Order 1
          (List.replicate 56 0)).1 0 = hread [[1, 2, 3]] 0) :=
  ⟨by decide,
    (C10_frame .P224 demoOps 64 p224Order 1 [[1, 2, 3]] 0 0 0 0 0 0 0
      (List.replicate 56 0)).1 0 (by decide),
    (C10_frame .P224 demoOps 64 p224Order 1 [[1, 2, 3]] 0 0 0 0 0 0 0
      (List.replicate 56 0)).2.1 0 (by decide),
    (C10_frame .P224 demoOps 64 p224Order 1 [[1, 2, 3]] 0 0 0 0 0 0 0
      (List.replicate 56 0)).2.2 0 (by decide)⟩

end Mqv
